import Mathlib

/-!
# The transaction cache of eris-mint (`manager/eris-mint/state/tx_cache.go`)

A shallow embedding of `TxCache`, the per-transaction overlay that buffers
account and storage writes over a `BlockCache`, and of its flush `Sync`;
and, for the scenario of `evm/log_event_test.go`, of the log instructions of
the engine, which are modelled from the specification.

Conventions of the embedding.

* A method of `TxCache` is a function of the overlay as the method reads it,
  every `*vm.Account` pointer followed (`nil` is `none`), and of the values of
  the accounts it is passed; a method that writes through a pointer argument
  returns the new value of the pointee.
* A run of calls (`step`, `run`) keeps the pointers: a `World` is a heap of
  accounts and an overlay whose account records hold places of the heap, a
  call is passed a place, and `World.cache` is the overlay with the pointers
  followed. A write through a pointer shows in every record that holds it.
* `txs.NewContractAddress` and `ptypes.GlobalPermissionsAddress256` are
  parameters (`Env`): no statement depends on what they are, and the concrete
  evaluations fix them in `sampleEnv`.
* A Go map is an association list in which a key occurs at most once
  (`NodupKeys`); the list order is the order in which `range` visits the map,
  so a statement over every list is a statement over every iteration order.
* A call that ends in a Go panic returns `Except.error`.
* `int64` values are `Int`s, wrapped with `wrapInt64` where the code does
  arithmetic on them; `int` is the 64-bit `int` of the platforms eris-db
  targets.
-/

namespace ErisMint

/-! ## Words and addresses -/

/-- Modelled from the spec: the `word256` package lies outside the files embedded
here. A word is the "fixed-width (256-bit) integer used for addresses
(padded) and storage values"; the 32 bytes are read big-endian. -/
abbrev Word256 := Fin (2 ^ 256)

/-- Modelled from the spec: the backing store's "native (shorter) identifier
form" of an address, the 20 bytes that `Postfix(20)` yields, read big-endian. -/
abbrev Address := Fin (2 ^ 160)

/-- A byte of a `[]byte`. -/
abbrev Byte := Fin 256

/-- Modelled from the spec: `Zero256`, the all-zero word. -/
def Zero256 : Word256 := 0

/-- Modelled from the spec: `w.Postfix(20)`, the truncation of a word to its
last 20 bytes (the low 160 bits). -/
def Word256.Postfix20 (w : Word256) : Address :=
  ⟨w.val % 2 ^ 160, Nat.mod_lt _ (by decide)⟩

/-- Modelled from the spec: `LeftPadWord256(bz)` on a 20-byte slice, the word
whose first 12 bytes are zero and whose last 20 bytes are `bz`. -/
def LeftPadWord256 (bz : Address) : Word256 :=
  ⟨bz.val, Nat.lt_of_lt_of_le bz.isLt (by decide)⟩

/-- The composite key `Tuple256{addr, key}` of the storage map. -/
abbrev Tuple256 := Word256 × Word256

/-- The function `Tuple256Split`. -/
def Tuple256Split (t : Tuple256) : Word256 × Word256 := (t.1, t.2)

/-! ## Accounts -/

/-- Modelled from the spec: `ptypes.AccountPermissions`, "an opaque bitset,
copied by value on transfer between layers". -/
structure AccountPermissions where
  bits : Nat
deriving DecidableEq, Repr

/-- The type `vmAccountOther`: what `acm.Account` holds and `vm.Account` has no field
for. `crypto.PubKey` is an interface, so it may be `nil`. -/
structure vmAccountOther where
  PubKey : Option (List Byte)
  StorageRoot : List Byte
deriving DecidableEq, Repr

/-- The method `vmAccountOther.unpack`. -/
def vmAccountOther.unpack (accOther : vmAccountOther) : Option (List Byte) × List Byte :=
  (accOther.PubKey, accOther.StorageRoot)

/-- The type `vm.Account`, the account of the execution engine. `Other` is an
`interface{}` that this package fills with a `vmAccountOther` or leaves `nil`. -/
structure Account where
  Address : Word256
  Balance : Int
  Code : List Byte
  Nonce : Int
  Other : Option vmAccountOther
  Permissions : AccountPermissions
deriving DecidableEq, Repr

/-- The type `acm.Account`, the account of the backing store. -/
structure StateAccount where
  Address : Address
  PubKey : Option (List Byte)
  Balance : Int
  Code : List Byte
  Sequence : Int
  StorageRoot : List Byte
  Permissions : AccountPermissions
deriving DecidableEq, Repr

/-- The value of a Go `int64` expression whose mathematical value is `x`. -/
def wrapInt64 (x : Int) : Int := (x + 2 ^ 63) % 2 ^ 64 - 2 ^ 63

/-- The function `toVMAccount`: converts a `acm.Account` to a `vm.Account`. -/
def toVMAccount (acc : StateAccount) : Account :=
  { Address := LeftPadWord256 acc.Address
    Balance := acc.Balance
    Code := acc.Code
    Nonce := wrapInt64 acc.Sequence
    Permissions := acc.Permissions
    Other := some { PubKey := acc.PubKey, StorageRoot := acc.StorageRoot } }

/-- The function `toStateAccount`: converts a `vm.Account` to a `acm.Account`. -/
def toStateAccount (acc : Account) : StateAccount :=
  let (pubKey, storageRoot) :=
    match acc.Other with
    | some other => other.unpack
    | none => (none, [])
  { Address := acc.Address.Postfix20
    PubKey := pubKey
    Balance := acc.Balance
    Code := acc.Code
    Sequence := wrapInt64 acc.Nonce
    StorageRoot := storageRoot
    Permissions := acc.Permissions }

/-! ## Go maps -/

/-- The comma-ok read `v, ok := m[k]` of a Go map. -/
def mapGet {K V : Type} [DecidableEq K] : List (K × V) → K → Option V
  | [], _ => none
  | e :: rest, k => if e.1 = k then some e.2 else mapGet rest k

/-- The assignment `m[k] = v` of a Go map: the entry of `k` is overwritten
when there is one, and added otherwise. -/
def mapSet {K V : Type} [DecidableEq K] : List (K × V) → K → V → List (K × V)
  | [], k, v => [(k, v)]
  | e :: rest, k, v => if e.1 = k then (k, v) :: rest else e :: mapSet rest k v

/-- A Go map holds each key once. -/
def NodupKeys {K V : Type} (m : List (K × V)) : Prop := (m.map Prod.fst).Nodup

/-! ## The backing store -/

/-- Modelled from the spec: `BlockCache`, the backing store, lies outside
the files embedded here. It is "durable account/storage state" that "exposes
get/set/remove for accounts and storage": accounts under their 20-byte
address and storage values under (address, slot). -/
structure BlockCache where
  accounts : Address → Option StateAccount
  storages : Tuple256 → Option Word256

/-- Modelled from the spec: the backing store's `get_account(addr)`. -/
def BlockCache.GetAccount (b : BlockCache) (addr : Address) : Option StateAccount :=
  b.accounts addr

/-- Modelled from the spec: the backing store's `update_account(acc)`, which
stores the account under its own address. -/
def BlockCache.UpdateAccount (b : BlockCache) (acc : StateAccount) : BlockCache :=
  { b with accounts := fun a => if a = acc.Address then some acc else b.accounts a }

/-- Modelled from the spec: the backing store's `remove_account(addr)`. -/
def BlockCache.RemoveAccount (b : BlockCache) (addr : Address) : BlockCache :=
  { b with accounts := fun a => if a = addr then none else b.accounts a }

/-- Modelled from the spec: the backing store's `get_storage(addr, slot)`,
with the "default zero word if absent there too". -/
def BlockCache.GetStorage (b : BlockCache) (addr key : Word256) : Word256 :=
  (b.storages (addr, key)).getD Zero256

/-- Modelled from the spec: the backing store's `set_storage(addr, slot,
value)`. -/
def BlockCache.SetStorage (b : BlockCache) (addr key value : Word256) : BlockCache :=
  { b with storages := fun t => if t = (addr, key) then some value else b.storages t }

/-! ## The overlay -/

/-- The type `vmAccountInfo`: an account record of the overlay. -/
structure vmAccountInfo where
  account : Option Account
  removed : Bool
deriving DecidableEq, Repr

/-- The method `vmAccountInfo.unpack`. -/
def vmAccountInfo.unpack (accInfo : vmAccountInfo) : Option Account × Bool :=
  (accInfo.account, accInfo.removed)

/-- The type `TxCache`. -/
structure TxCache where
  backend : BlockCache
  accounts : List (Word256 × vmAccountInfo)
  storages : List (Tuple256 × Word256)

/-- The constructor `NewTxCache`. -/
def NewTxCache (backend : BlockCache) : TxCache :=
  { backend := backend, accounts := [], storages := [] }

/-- The read `cache.accounts[addr]`, which yields the zero `vmAccountInfo`
for a key the map does not hold. -/
def TxCache.accountsAt (cache : TxCache) (addr : Word256) : vmAccountInfo :=
  (mapGet cache.accounts addr).getD { account := none, removed := false }

/-- The ways a call on the overlay panics. -/
inductive Panic where
  /-- The panic `PanicSanity("UpdateAccount on a removed account")`. -/
  | updateRemoved
  /-- The panic `PanicSanity("RemoveAccount on a removed account")`. -/
  | removeRemoved
  /-- The panic `PanicSanity("SetStorage() on a removed account")`. -/
  | setStorageRemoved
  /-- The panic `PanicSanity("Could not create account, address already exists: %X")`. -/
  | addressExists (addr : Word256)
  /-- The runtime panic of a `nil` pointer dereference. -/
  | nilDereference
deriving DecidableEq, Repr

/-- What `tx_cache.go` imports from packages outside the files embedded here. -/
structure Env where
  /-- The function `txs.NewContractAddress(caller, nonce)`, which yields a 20-byte address. -/
  NewContractAddress : Address → Int → Address
  /-- The constant `ptypes.GlobalPermissionsAddress256`. -/
  GlobalPermissionsAddress256 : Word256

/-- The method `TxCache.GetAccount`. -/
def TxCache.GetAccount (cache : TxCache) (addr : Word256) : Option Account :=
  match (cache.accountsAt addr).unpack with
  | (acc, removed) =>
    if removed then none
    else if acc = none then
      match cache.backend.GetAccount addr.Postfix20 with
      | some acc2 => some (toVMAccount acc2)
      | none => acc
    else acc

/-- The method `TxCache.UpdateAccount`. -/
def TxCache.UpdateAccount (cache : TxCache) (acc : Account) : Except Panic TxCache :=
  let addr := acc.Address
  match (cache.accountsAt addr).unpack with
  | (_, removed) =>
    if removed then .error .updateRemoved
    else .ok { cache with accounts := mapSet cache.accounts addr { account := some acc, removed := false } }

/-- The method `TxCache.RemoveAccount`. -/
def TxCache.RemoveAccount (cache : TxCache) (acc : Account) : Except Panic TxCache :=
  let addr := acc.Address
  match (cache.accountsAt addr).unpack with
  | (_, removed) =>
    if removed then .error .removeRemoved
    else .ok { cache with accounts := mapSet cache.accounts addr { account := some acc, removed := true } }

/-- The address `CreateAccount` derives for a creator. -/
def derivedAddress (env : Env) (creator : Account) : Word256 :=
  LeftPadWord256 (env.NewContractAddress creator.Address.Postfix20 creator.Nonce)

/-- The method `TxCache.CreateAccount`. The first component is the creator after the
call: its nonce is bumped through the pointer before anything can panic. -/
def TxCache.CreateAccount (env : Env) (cache : TxCache) (creator : Account) :
    Account × Except Panic (TxCache × Account) :=
  let nonce := creator.Nonce
  let creator' := { creator with Nonce := wrapInt64 (creator.Nonce + 1) }
  let addr := LeftPadWord256 (env.NewContractAddress creator'.Address.Postfix20 nonce)
  match (cache.accountsAt addr).unpack with
  | (account, removed) =>
    if removed || account = none then
      match cache.GetAccount env.GlobalPermissionsAddress256 with
      | none => (creator', .error .nilDereference)
      | some global =>
        let account : Account :=
          { Address := addr
            Balance := 0
            Code := []
            Nonce := 0
            Permissions := global.Permissions
            Other := some { PubKey := none, StorageRoot := [] } }
        (creator', .ok ({ cache with accounts := mapSet cache.accounts addr { account := some account, removed := false } }, account))
    else (creator', .error (.addressExists addr))

/-- The method `TxCache.GetStorage`. -/
def TxCache.GetStorage (cache : TxCache) (addr key : Word256) : Word256 :=
  match mapGet cache.storages (addr, key) with
  | some value => value
  | none => cache.backend.GetStorage addr key

/-- The method `TxCache.SetStorage`. -/
def TxCache.SetStorage (cache : TxCache) (addr key value : Word256) : Except Panic TxCache :=
  match (cache.accountsAt addr).unpack with
  | (_, removed) =>
    if removed then .error .setStorageRemoved
    else .ok { cache with storages := mapSet cache.storages (addr, key) value }

/-- The body of the first loop of `Sync`. -/
def syncStorage (backend : BlockCache) (entry : Tuple256 × Word256) : BlockCache :=
  match Tuple256Split entry.1 with
  | (addr, key) => backend.SetStorage addr key entry.2

/-- The body of the second loop of `Sync`; `toStateAccount` dereferences the
record's account. -/
def syncAccount (backend : BlockCache) (entry : Word256 × vmAccountInfo) : Except Panic BlockCache :=
  match entry.2.unpack with
  | (acc, removed) =>
    if removed then .ok (backend.RemoveAccount entry.1.Postfix20)
    else
      match acc with
      | some acc => .ok (backend.UpdateAccount (toStateAccount acc))
      | none => .error .nilDereference

/-- The second loop of `Sync`, over the account records in iteration order. -/
def syncAccounts : BlockCache → List (Word256 × vmAccountInfo) → Except Panic BlockCache
  | backend, [] => .ok backend
  | backend, entry :: rest =>
    match syncAccount backend entry with
    | .ok backend' => syncAccounts backend' rest
    | .error p => .error p

/-- The method `TxCache.Sync`: the overlay after the call, its backing store flushed to. -/
def TxCache.Sync (cache : TxCache) : Except Panic TxCache :=
  match syncAccounts (cache.storages.foldl syncStorage cache.backend) cache.accounts with
  | .ok backend => .ok { cache with backend := backend }
  | .error p => .error p

/-- The accounts behind the `*vm.Account` pointers of a run. A pointer is the
place of its account in the list; a place the list does not have stands for
`nil`. -/
abbrev Heap := List Account

/-- The type `vmAccountInfo` as the map holds it: the pointer `account`, which
may be `nil`, and the flag `removed`. -/
structure vmAccountInfoPtr where
  account : Option Nat
  removed : Bool
deriving DecidableEq, Repr

/-- The record with its pointer followed: what `unpack` and a dereference of
the account yield on the heap. -/
def vmAccountInfoPtr.deref (heap : Heap) (info : vmAccountInfoPtr) : vmAccountInfo :=
  { account := info.account.bind (fun p => heap[p]?), removed := info.removed }

/-- The state of a run of calls on one overlay: the heap of accounts, and the
overlay with its account records holding pointers into the heap. The callers
of the overlay hold pointers into the same heap. -/
structure World where
  heap : Heap
  backend : BlockCache
  accounts : List (Word256 × vmAccountInfoPtr)
  storages : List (Tuple256 × Word256)

/-- The overlay of a world as the methods read it, every pointer followed. -/
def World.cache (w : World) : TxCache :=
  { backend := w.backend
    accounts := w.accounts.map (fun e => (e.1, e.2.deref w.heap))
    storages := w.storages }

/-- The world after `NewTxCache(backend)`, with the accounts that the callers
hold at the start. -/
def NewWorld (heap : Heap) (backend : BlockCache) : World :=
  { heap := heap, backend := backend, accounts := [], storages := [] }

/-- A call on the state-access interface that the overlay implements. An
account argument is the pointer the caller passes. -/
inductive Op where
  | getAccount (addr : Word256)
  | updateAccount (acc : Nat)
  | removeAccount (acc : Nat)
  | createAccount (creator : Nat)
  | getStorage (addr key : Word256)
  | setStorage (addr key value : Word256)
deriving DecidableEq, Repr

/-- The world after one call that returns, or the panic that ends it.
`GetAccount` and `GetStorage` assign to no field of the overlay; a
`GetAccount` that falls through to the backing store allocates the account
that `toVMAccount` builds. `UpdateAccount` and `RemoveAccount` store the
pointer they are passed. `CreateAccount` bumps the nonce of the creator
through the pointer, so that every record that holds this pointer shows the
bump, reads the overlay after that, allocates the new account and stores the
pointer to it. -/
def step (env : Env) (w : World) : Op → Except Panic World
  | .getAccount addr =>
    if (w.cache.accountsAt addr).removed = false ∧ (w.cache.accountsAt addr).account = none then
      match w.backend.GetAccount addr.Postfix20 with
      | some acc2 => .ok { w with heap := w.heap ++ [toVMAccount acc2] }
      | none => .ok w
    else .ok w
  | .updateAccount p =>
    match w.heap[p]? with
    | none => .error .nilDereference
    | some acc =>
      match w.cache.UpdateAccount acc with
      | .error e => .error e
      | .ok _ =>
        .ok { w with accounts := mapSet w.accounts acc.Address { account := some p, removed := false } }
  | .removeAccount p =>
    match w.heap[p]? with
    | none => .error .nilDereference
    | some acc =>
      match w.cache.RemoveAccount acc with
      | .error e => .error e
      | .ok _ =>
        .ok { w with accounts := mapSet w.accounts acc.Address { account := some p, removed := true } }
  | .createAccount p =>
    match w.heap[p]? with
    | none => .error .nilDereference
    | some creator =>
      let heap1 := w.heap.set p { creator with Nonce := wrapInt64 (creator.Nonce + 1) }
      match (TxCache.CreateAccount env (World.cache { w with heap := heap1 }) creator).2 with
      | .error e => .error e
      | .ok (_, account) =>
        .ok { w with
              heap := heap1 ++ [account]
              accounts := mapSet w.accounts account.Address
                { account := some heap1.length, removed := false } }
  | .getStorage _ _ => .ok w
  | .setStorage addr key value =>
    match w.cache.SetStorage addr key value with
    | .error e => .error e
    | .ok _ => .ok { w with storages := mapSet w.storages (addr, key) value }

/-- The world after a sequence of calls that all return. -/
def run (env : Env) : World → List Op → Except Panic World
  | w, [] => .ok w
  | w, op :: rest =>
    match step env w op with
    | .ok w' => run env w' rest
    | .error p => .error p

/-- No `CreateAccount` of the run of `ops` from `w` derives the address `A`:
the derived address is that of the creator as the call finds it on the heap. -/
def derivesNever (env : Env) (A : Word256) : World → List Op → Bool
  | _, [] => true
  | w, op :: rest =>
    (match op with
      | .createAccount p =>
        match w.heap[p]? with
        | some creator => decide (derivedAddress env creator ≠ A)
        | none => true
      | _ => true) &&
    (match step env w op with
      | .ok w' => derivesNever env A w' rest
      | .error _ => true)

/-- The account literal that `CreateAccount` builds at `addr` with the
permissions `perms`. -/
def newAccount (addr : Word256) (perms : AccountPermissions) : Account :=
  { Address := addr, Balance := 0, Code := [], Nonce := 0, Permissions := perms
    Other := some { PubKey := none, StorageRoot := [] } }

/-! ## Concrete inputs -/

/-- An environment to evaluate the code in: the global permissions address is
the zero word, and the derived address is the caller's address plus the nonce
plus one, modulo `2 ^ 160`. -/
def sampleEnv : Env :=
  { NewContractAddress := fun caller nonce =>
      ⟨(caller.val + nonce.toNat + 1) % 2 ^ 160, Nat.mod_lt _ (by decide)⟩
    GlobalPermissionsAddress256 := Zero256 }

/-- The global permissions account of `sampleBackend`. -/
def sampleGlobal : StateAccount :=
  { Address := 0, PubKey := none, Balance := 0, Code := [], Sequence := 0, StorageRoot := []
    Permissions := { bits := 7 } }

/-- A backing store that holds the global permissions account and nothing
else. -/
def sampleBackend : BlockCache :=
  { accounts := fun a => if a = 0 then some sampleGlobal else none
    storages := fun _ => none }

/-- An engine account with the given address and nonce, and nothing else. -/
def sampleAccount (addr : Word256) (nonce : Int) : Account :=
  { Address := addr, Balance := 0, Code := [], Nonce := nonce, Other := none
    Permissions := { bits := 0 } }

/-- The account `CreateAccount` builds in `sampleEnv` over `sampleBackend` at
the address `addr`. -/
def sampleFresh (addr : Word256) : Account :=
  { Address := addr, Balance := 0, Code := [], Nonce := 0
    Other := some { PubKey := none, StorageRoot := [] }
    Permissions := { bits := 7 } }

/-- An overlay over `sampleBackend` with a present record at address 5, a
tombstone at address 6 and a pending value 7 for slot 1 of address 5. -/
def sampleOverlay : TxCache :=
  { backend := sampleBackend
    accounts := [(5, { account := some (sampleAccount 5 0), removed := false }),
                 (6, { account := some (sampleAccount 6 0), removed := true })]
    storages := [((5, 1), 7)] }

/-- The word whose first 12 bytes are `00 .. 00 01` and whose last 20 bytes are
`00 .. 00 05`: it is `2 ^ 160 + 5`, and shares its 20-byte postfix with the
word 5. -/
def clashWord : Word256 := 1461501637330902918203684832716283019655932542981

/-- The overlay that `UpdateAccount` of the account at address 5 and then
`RemoveAccount` of the account at address `clashWord` build over
`sampleBackend`, its account records in this order. -/
def clashOverlay : TxCache :=
  { backend := sampleBackend
    accounts := [(5, { account := some (sampleAccount 5 0), removed := false }),
                 (clashWord, { account := some (sampleAccount clashWord 0), removed := true })]
    storages := [] }

/-- The overlay `clashOverlay` with its account records in the other order. -/
def clashOverlaySwapped : TxCache :=
  { backend := sampleBackend
    accounts := [(clashWord, { account := some (sampleAccount clashWord 0), removed := true }),
                 (5, { account := some (sampleAccount 5 0), removed := false })]
    storages := [] }

/-- The overlay holds a tombstone for `addr`: a record with `removed` set. -/
def TxCache.Tombstoned (cache : TxCache) (addr : Word256) : Prop :=
  (cache.accountsAt addr).removed = true

/-- The overlay holds a present record for `addr`, with the pending account
`acc`. -/
def TxCache.PresentWith (cache : TxCache) (addr : Word256) (acc : Account) : Prop :=
  (cache.accountsAt addr).removed = false ∧ (cache.accountsAt addr).account = some acc

/-- The overlay holds no account record for `addr`. -/
def TxCache.Unseen (cache : TxCache) (addr : Word256) : Prop :=
  mapGet cache.accounts addr = none

instance (cache : TxCache) (addr : Word256) : Decidable (cache.Tombstoned addr) :=
  inferInstanceAs (Decidable ((cache.accountsAt addr).removed = true))

instance (cache : TxCache) (addr : Word256) (acc : Account) : Decidable (cache.PresentWith addr acc) :=
  inferInstanceAs (Decidable (_ ∧ _))

instance (cache : TxCache) (addr : Word256) : Decidable (cache.Unseen addr) :=
  inferInstanceAs (Decidable (mapGet cache.accounts addr = none))

/-- The account keys of the overlay are pairwise distinct in their 20-byte
postfix, as left-padded 20-byte addresses are. -/
def TxCache.PostfixInjective (cache : TxCache) : Prop :=
  ∀ e1 ∈ cache.accounts, ∀ e2 ∈ cache.accounts, e1.1.Postfix20 = e2.1.Postfix20 → e1.1 = e2.1

/-- Each account record that is not a tombstone holds an account and is stored
under the address of that account, as `UpdateAccount` and `CreateAccount`
store it. -/
def TxCache.KeyedByAddress (cache : TxCache) : Prop :=
  ∀ e ∈ cache.accounts, e.2.removed = false → ∃ acc, e.2.account = some acc ∧ acc.Address = e.1

/-- What the flush of one account record leaves in the backing store at the
postfix of its key. -/
def flushed (info : vmAccountInfo) : Option StateAccount :=
  if info.removed then none else info.account.map toStateAccount

/-- The overlay `sampleOverlay` with its account records in the other order. -/
def sampleOverlaySwapped : TxCache :=
  { backend := sampleBackend
    accounts := [(6, { account := some (sampleAccount 6 0), removed := true }),
                 (5, { account := some (sampleAccount 5 0), removed := false })]
    storages := [((5, 1), 7)] }

/-- The values of a Go `int64` (and of the 64-bit `int`). -/
def inInt64 (x : Int) : Prop := -2 ^ 63 ≤ x ∧ x < 2 ^ 63

instance (x : Int) : Decidable (inInt64 x) :=
  inferInstanceAs (Decidable (_ ∧ _))

/-- A backing-store account to evaluate the conversions on. -/
def sampleStateAccount : StateAccount :=
  { Address := 5, PubKey := some [1, 2], Balance := 10, Code := [96, 0], Sequence := 3
    StorageRoot := [9], Permissions := { bits := 7 } }

/-- The backing store that `Sync` leaves for `sampleOverlay`. -/
def sampleFlushed : BlockCache :=
  ((sampleBackend.SetStorage 5 1 7).UpdateAccount (toStateAccount (sampleAccount 5 0))).RemoveAccount
    (Word256.Postfix20 6)

/-- Each account record of the overlay, present or tombstone, holds an account
and is stored under the address of that account. -/
def TxCache.UnderOwnAddress (cache : TxCache) : Prop :=
  ∀ e ∈ cache.accounts, ∃ acc, e.2.account = some acc ∧ acc.Address = e.1

/-! ## The log instructions of the engine -/

/-- Modelled from the spec: the log event `txs.EventDataLog`, which lies outside
the files embedded here: the "address that emitted it, ordered sequence of topic
words, opaque data payload (byte sequence), and the block height". -/
structure EventDataLog where
  Address : Word256
  Topics : List Word256
  Data : List Byte
  Height : Int
deriving DecidableEq, Repr

/-- Modelled from the spec: the instructions of the log scenario, decoded. The
engine and its `opcodes` lie outside the files embedded here; an
"immediate-push" instruction carries its literal byte, and "the logging family
is parameterized by the count of topics it pops". -/
inductive Instr where
  | STOP
  | PUSH1 (b : Byte)
  | MSTORE8
  | LOG (n : Nat)
deriving DecidableEq, Repr

/-- Modelled from the spec: the "recoverable execution-error tier": "ran out of
gas", "invalid memory access" and "other execution fault" (too few words on the
stack, a log instruction with more than four topics). -/
inductive ExecError where
  | outOfGas
  | memoryOutOfBounds
  | stackUnderflow
  | invalidInstruction
deriving DecidableEq, Repr

/-- Modelled from the spec: the engine, with "the block height supplied to the
engine at call time"; the size of its working memory and the gas an
instruction consumes are left open by the spec and are parameters. -/
structure VM where
  BlockHeight : Int
  memoryCapacity : Nat
  gasCost : Instr → Nat

/-- Modelled from the spec: the state of a call: the stack, the working memory,
the "single mutable counter" of gas and the events handed to the event sink,
in the order of their emission. -/
structure Machine where
  stack : List Word256
  memory : List Byte
  gas : Int
  events : List EventDataLog
deriving DecidableEq, Repr

/-- The word a `PUSH1` pushes for its literal byte. -/
def byteWord (b : Byte) : Word256 :=
  ⟨b.val, Nat.lt_of_lt_of_le b.isLt (by decide)⟩

/-- The low byte of a word. -/
def lowByte (w : Word256) : Byte :=
  ⟨w.val % 256, Nat.mod_lt _ (by decide)⟩

/-- Modelled from the spec: "every instruction step, including the logging
family, consumes gas from a single mutable counter"; "when the counter would go
negative the engine must halt execution with an out-of-gas condition before any
further state mutation from that instruction is applied". -/
def VM.charge (vm : VM) (i : Instr) (m : Machine) : Except ExecError Machine :=
  if m.gas < vm.gasCost i then .error .outOfGas
  else .ok { m with gas := m.gas - vm.gasCost i }

/-- Modelled from the spec: one instruction step of a call on `callee`. A push
puts its literal on the stack; `MSTORE8` pops a memory offset and a value and
stores the low byte of the value at the offset; a log instruction pops the data
offset, the data length and then its topics, topic 1 first, and hands the sink
the event with "the currently executing account's address, the ordered topic
sequence, the raw data slice, and the block height"; "memory out-of-bounds
addressing for the data slice or insufficient declared topics is a VM execution
error". -/
def VM.step (vm : VM) (callee : Account) (i : Instr) (m : Machine) : Except ExecError Machine :=
  match vm.charge i m with
  | .error e => .error e
  | .ok m =>
    match i with
    | .STOP => .ok m
    | .PUSH1 b => .ok { m with stack := byteWord b :: m.stack }
    | .MSTORE8 =>
      match m.stack with
      | offset :: value :: stack =>
        if offset.val < m.memory.length then
          .ok { m with stack := stack, memory := m.memory.set offset.val (lowByte value) }
        else .error .memoryOutOfBounds
      | _ => .error .stackUnderflow
    | .LOG n =>
      if 4 < n then .error .invalidInstruction
      else
        match m.stack with
        | offset :: size :: stack =>
          if stack.length < n then .error .stackUnderflow
          else if offset.val + size.val ≤ m.memory.length then
            .ok { m with
                  stack := stack.drop n
                  events := m.events ++
                    [{ Address := callee.Address
                       Topics := stack.take n
                       Data := (m.memory.drop offset.val).take size.val
                       Height := vm.BlockHeight }] }
          else .error .memoryOutOfBounds
        | _ => .error .stackUnderflow

/-- Modelled from the spec: the run of a code from a state: instruction by
instruction until a `STOP`, the end of the code or an execution error. The
result is the state reached and whether the call succeeded. -/
def VM.execCode (vm : VM) (callee : Account) : List Instr → Machine → Machine × Except ExecError Unit
  | [], m => (m, .ok ())
  | i :: rest, m =>
    match vm.step callee i m with
    | .error e => (m, .error e)
    | .ok m' => if i = .STOP then (m', .ok ()) else vm.execCode callee rest m'

/-- Modelled from the spec: `VM.Call`, "invoking the engine" with "a caller
account, a callee account, the callee's code" and "a mutable gas counter". The
input bytes and the value to transfer play no part in the instructions
modelled and are left out. -/
def VM.Call (vm : VM) (_caller callee : Account) (code : List Instr) (gas : Int) :
    Machine × Except ExecError Unit :=
  vm.execCode callee code
    { stack := [], memory := List.replicate vm.memoryCapacity 0, gas := gas, events := [] }

/-- The code of the log scenario: store the byte `value` at the memory offset
`offset`, push the topics, the last one first, push the data length and the
data offset, log with as many topics as were pushed, and stop. -/
def logCode (value offset : Byte) (topics : List Byte) (size dataOffset : Byte) : List Instr :=
  [.PUSH1 value, .PUSH1 offset, .MSTORE8] ++ (topics.reverse.map .PUSH1 ++
    [.PUSH1 size, .PUSH1 dataOffset, .LOG topics.length, .STOP])

/-- The gas that a code consumes when every instruction of it is run. -/
def VM.codeGas (vm : VM) (code : List Instr) : Nat :=
  (code.map vm.gasCost).sum

/-- An engine to evaluate the log scenario on: block height 0, a working memory
of 64 bytes, and one unit of gas for every instruction. -/
def sampleVM : VM :=
  { BlockHeight := 0, memoryCapacity := 64, gasCost := fun _ => 1 }

/-- The code of `TestLog4`. -/
def testLog4Code : List Instr :=
  [.PUSH1 16, .PUSH1 0, .MSTORE8, .PUSH1 4, .PUSH1 3, .PUSH1 2, .PUSH1 1, .PUSH1 1, .PUSH1 0,
   .LOG 4, .STOP]

/-- Each account record of the overlay of a world, present or tombstone, holds
a pointer to an account on the heap and is stored under the address of that
account. -/
def World.PointsToOwnAddress (w : World) : Prop :=
  ∀ e ∈ w.accounts, ∃ p acc, e.2.account = some p ∧ w.heap[p]? = some acc ∧ acc.Address = e.1

/-! ## Lemmas on Go maps -/

theorem mapGet_mapSet_same {K V : Type} [DecidableEq K] (m : List (K × V)) (k : K) (v : V) :
    mapGet (mapSet m k v) k = some v := by
  induction m with
  | nil => simp [mapSet, mapGet]
  | cons e rest ih =>
    by_cases h : e.1 = k
    · simp [mapSet, mapGet, h]
    · simp [mapSet, mapGet, h, ih]

theorem mapGet_mapSet_other {K V : Type} [DecidableEq K] (m : List (K × V)) (k k' : K) (v : V)
    (hk : k' ≠ k) : mapGet (mapSet m k v) k' = mapGet m k' := by
  induction m with
  | nil => simp [mapSet, mapGet, Ne.symm hk]
  | cons e rest ih =>
    by_cases h : e.1 = k
    · have h' : ¬ e.1 = k' := fun h2 => hk (h2.symm.trans h)
      simp [mapSet, mapGet, h, h', Ne.symm hk]
    · by_cases h2 : e.1 = k'
      · have h3 : ¬ k' = k := hk
        simp [mapSet, mapGet, h2, h3]
      · simp [mapSet, mapGet, h, h2, ih]

theorem accountsAt_mapSet_same (cache : TxCache) (addr : Word256) (info : vmAccountInfo) :
    TxCache.accountsAt { cache with accounts := mapSet cache.accounts addr info } addr = info := by
  simp [TxCache.accountsAt, mapGet_mapSet_same]

theorem accountsAt_mapSet_other (cache : TxCache) (addr addr' : Word256) (info : vmAccountInfo)
    (h : addr' ≠ addr) :
    TxCache.accountsAt { cache with accounts := mapSet cache.accounts addr info } addr'
      = cache.accountsAt addr' := by
  simp [TxCache.accountsAt, mapGet_mapSet_other _ _ _ _ h]

/-! ## Reading accounts -/

/-- C1: `GetAccount(A)` returns absent when the overlay holds a tombstone for
`A`, whatever the backing store holds; returns the pending account when the
overlay holds a present record for `A`; and otherwise returns `toVMAccount` of
the backing store's account at the 20-byte postfix of `A`, or absent when the
backing store has none. -/
theorem getAccount_cases (cache : TxCache) (A : Word256) :
    (cache.Tombstoned A → cache.GetAccount A = none) ∧
    (∀ acc, cache.PresentWith A acc → cache.GetAccount A = some acc) ∧
    (¬ cache.Tombstoned A → (∀ acc, ¬ cache.PresentWith A acc) →
      cache.GetAccount A = (cache.backend.GetAccount A.Postfix20).map toVMAccount) := by
  refine ⟨?_, ?_, ?_⟩
  · intro h
    simp only [TxCache.Tombstoned] at h
    simp [TxCache.GetAccount, vmAccountInfo.unpack, h]
  · intro acc h
    obtain ⟨h1, h2⟩ := h
    simp [TxCache.GetAccount, vmAccountInfo.unpack, h1, h2]
  · intro h1 h2
    simp only [TxCache.Tombstoned, Bool.not_eq_true] at h1
    have h3 : (cache.accountsAt A).account = none := by
      cases hacc : (cache.accountsAt A).account with
      | none => rfl
      | some acc => exact absurd ⟨h1, hacc⟩ (h2 acc)
    simp only [TxCache.GetAccount, vmAccountInfo.unpack, h1, h3]
    cases cache.backend.GetAccount A.Postfix20 <;> simp

/-! ## Removing and updating accounts -/

theorem getAccount_of_tombstoned (cache : TxCache) (A : Word256) (h : cache.Tombstoned A) :
    cache.GetAccount A = none := by
  simp only [TxCache.Tombstoned] at h
  simp [TxCache.GetAccount, vmAccountInfo.unpack, h]

theorem removeAccount_eq (cache : TxCache) (acc : Account) :
    cache.RemoveAccount acc =
      if (cache.accountsAt acc.Address).removed = true then .error .removeRemoved
      else .ok { cache with
        accounts := mapSet cache.accounts acc.Address { account := some acc, removed := true } } := by
  simp [TxCache.RemoveAccount, vmAccountInfo.unpack]

theorem updateAccount_eq (cache : TxCache) (acc : Account) :
    cache.UpdateAccount acc =
      if (cache.accountsAt acc.Address).removed = true then .error .updateRemoved
      else .ok { cache with
        accounts := mapSet cache.accounts acc.Address { account := some acc, removed := false } } := by
  simp [TxCache.UpdateAccount, vmAccountInfo.unpack]

theorem setStorage_eq (cache : TxCache) (addr key value : Word256) :
    cache.SetStorage addr key value =
      if (cache.accountsAt addr).removed = true then .error .setStorageRemoved
      else .ok { cache with storages := mapSet cache.storages (addr, key) value } := by
  simp [TxCache.SetStorage, vmAccountInfo.unpack]

/-- C2: `RemoveAccount(acc)` panics exactly when `acc.Address` is already
tombstoned in the overlay. When it returns, `GetAccount(acc.Address)` is absent
whatever the backing store holds at that address, and a following
`UpdateAccount`, `RemoveAccount` or `SetStorage` on that address panics. -/
theorem removeAccount_tombstone_exclusive (cache : TxCache) (acc : Account) :
    ((∃ p, cache.RemoveAccount acc = .error p) ↔ cache.Tombstoned acc.Address) ∧
    (¬ cache.Tombstoned acc.Address → ∃ cache', cache.RemoveAccount acc = .ok cache') ∧
    (∀ cache', cache.RemoveAccount acc = .ok cache' →
      (∀ backend, TxCache.GetAccount { cache' with backend := backend } acc.Address = none) ∧
      (∀ acc2 : Account, acc2.Address = acc.Address →
        cache'.UpdateAccount acc2 = .error .updateRemoved ∧
        cache'.RemoveAccount acc2 = .error .removeRemoved) ∧
      (∀ key value, cache'.SetStorage acc.Address key value = .error .setStorageRemoved)) := by
  rw [removeAccount_eq]
  by_cases h : (cache.accountsAt acc.Address).removed = true
  · rw [if_pos h]
    exact ⟨⟨fun _ => h, fun _ => ⟨_, rfl⟩⟩, fun hn => absurd h hn, fun c hc => (by cases hc)⟩
  · rw [if_neg h]
    refine ⟨⟨fun ⟨p, hp⟩ => (by cases hp), fun ht => absurd ht h⟩, fun _ => ⟨_, rfl⟩, ?_⟩
    intro cache' hc
    injection hc with hc
    subst hc
    refine ⟨?_, ?_, ?_⟩
    · intro backend
      apply getAccount_of_tombstoned
      simp [TxCache.Tombstoned, TxCache.accountsAt, mapGet_mapSet_same]
    · intro acc2 h2
      rw [updateAccount_eq, removeAccount_eq, h2]
      simp [TxCache.accountsAt, mapGet_mapSet_same]
    · intro key value
      rw [setStorage_eq]
      simp [TxCache.accountsAt, mapGet_mapSet_same]

/-- C4: `UpdateAccount(acc)` panics exactly when `acc.Address` is tombstoned in
the overlay. When it returns, the address is marked present with `acc`,
whatever was pending there, and `GetAccount(acc.Address)` returns `acc`
whatever the backing store holds. -/
theorem updateAccount_marks_present (cache : TxCache) (acc : Account) :
    ((∃ p, cache.UpdateAccount acc = .error p) ↔ cache.Tombstoned acc.Address) ∧
    (¬ cache.Tombstoned acc.Address → ∃ cache', cache.UpdateAccount acc = .ok cache') ∧
    (∀ cache', cache.UpdateAccount acc = .ok cache' →
      cache'.PresentWith acc.Address acc ∧
      (∀ backend, TxCache.GetAccount { cache' with backend := backend } acc.Address = some acc)) := by
  rw [updateAccount_eq]
  by_cases h : (cache.accountsAt acc.Address).removed = true
  · rw [if_pos h]
    exact ⟨⟨fun _ => h, fun _ => ⟨_, rfl⟩⟩, fun hn => absurd h hn, fun c hc => (by cases hc)⟩
  · rw [if_neg h]
    refine ⟨⟨fun ⟨p, hp⟩ => (by cases hp), fun ht => absurd ht h⟩, fun _ => ⟨_, rfl⟩, ?_⟩
    intro cache' hc
    injection hc with hc
    subst hc
    refine ⟨?_, ?_⟩
    · simp [TxCache.PresentWith, TxCache.accountsAt, mapGet_mapSet_same]
    · intro backend
      simp [TxCache.GetAccount, vmAccountInfo.unpack, TxCache.accountsAt, mapGet_mapSet_same]

/-! ## Storage -/

/-- C5: `SetStorage(address, slot, value)` panics exactly when the address is
tombstoned in the overlay, for every value, the zero word included. When it
returns (so also for an address with no account record), `GetStorage(address,
slot)` on the overlay returns `value`, whatever was pending for the slot and
whatever the backing store holds. -/
theorem setStorage_then_getStorage (cache : TxCache) (addr key value : Word256) :
    ((∃ p, cache.SetStorage addr key value = .error p) ↔ cache.Tombstoned addr) ∧
    (¬ cache.Tombstoned addr → ∃ cache', cache.SetStorage addr key value = .ok cache') ∧
    (∀ cache', cache.SetStorage addr key value = .ok cache' →
      ∀ backend, TxCache.GetStorage { cache' with backend := backend } addr key = value) := by
  rw [setStorage_eq]
  by_cases h : (cache.accountsAt addr).removed = true
  · rw [if_pos h]
    exact ⟨⟨fun _ => h, fun _ => ⟨_, rfl⟩⟩, fun hn => absurd h hn, fun c hc => (by cases hc)⟩
  · rw [if_neg h]
    refine ⟨⟨fun ⟨p, hp⟩ => (by cases hp), fun ht => absurd ht h⟩, fun _ => ⟨_, rfl⟩, ?_⟩
    intro cache' hc backend
    injection hc with hc
    subst hc
    simp [TxCache.GetStorage, mapGet_mapSet_same]

/-! ## Creating accounts -/

theorem createAccount_fst (env : Env) (cache : TxCache) (creator : Account) :
    (cache.CreateAccount env creator).1 = { creator with Nonce := wrapInt64 (creator.Nonce + 1) } := by
  simp only [TxCache.CreateAccount, vmAccountInfo.unpack]
  split <;> [split; skip] <;> rfl

theorem createAccount_snd (env : Env) (cache : TxCache) (creator : Account) :
    (cache.CreateAccount env creator).2 =
      if (cache.accountsAt (derivedAddress env creator)).removed = true ∨
          (cache.accountsAt (derivedAddress env creator)).account = none then
        match cache.GetAccount env.GlobalPermissionsAddress256 with
        | none => .error .nilDereference
        | some g =>
          .ok ({ cache with
                  accounts := mapSet cache.accounts (derivedAddress env creator)
                    { account := some (newAccount (derivedAddress env creator) g.Permissions)
                      removed := false } },
               newAccount (derivedAddress env creator) g.Permissions)
      else .error (.addressExists (derivedAddress env creator)) := by
  simp only [TxCache.CreateAccount, vmAccountInfo.unpack, derivedAddress, newAccount,
    Bool.or_eq_true, decide_eq_true_eq]
  split <;> [split; skip] <;> rfl

theorem createAccount_ok_iff (env : Env) (cache cache' : TxCache) (creator account : Account) :
    (cache.CreateAccount env creator).2 = .ok (cache', account) ↔
      (¬ ∃ acc, cache.PresentWith (derivedAddress env creator) acc) ∧
      ∃ g, cache.GetAccount env.GlobalPermissionsAddress256 = some g ∧
        account = newAccount (derivedAddress env creator) g.Permissions ∧
        cache' = { cache with
          accounts := mapSet cache.accounts (derivedAddress env creator)
            { account := some account, removed := false } } := by
  rw [createAccount_snd]
  simp only [TxCache.PresentWith]
  cases hr : (cache.accountsAt (derivedAddress env creator)).removed <;>
    cases ha : (cache.accountsAt (derivedAddress env creator)).account <;>
    cases hg : cache.GetAccount env.GlobalPermissionsAddress256 <;>
    simp <;> constructor <;> intro h <;> (try obtain ⟨h1, h2⟩ := h) <;> simp_all

/-- C8: when `CreateAccount(creator)` returns, the account it returns has the
derived address, balance zero, no code, nonce zero and the permissions of the
account that `GetAccount` returned for the global permissions address, and the
overlay records it as present: `GetAccount` of the derived address afterwards
returns that account, whatever the backing store holds. -/
theorem createAccount_returns_fresh (env : Env) (cache cache' : TxCache)
    (creator creator' account : Account)
    (h : cache.CreateAccount env creator = (creator', .ok (cache', account))) :
    account.Address = derivedAddress env creator ∧ account.Balance = 0 ∧ account.Code = [] ∧
    account.Nonce = 0 ∧
    (∃ g, cache.GetAccount env.GlobalPermissionsAddress256 = some g ∧
      account.Permissions = g.Permissions) ∧
    cache'.PresentWith (derivedAddress env creator) account ∧
    (∀ backend, TxCache.GetAccount { cache' with backend := backend }
      (derivedAddress env creator) = some account) := by
  have h2 : (cache.CreateAccount env creator).2 = .ok (cache', account) := by rw [h]
  obtain ⟨-, g, hg, hacc, hc⟩ := (createAccount_ok_iff env cache cache' creator account).mp h2
  subst hc
  refine ⟨by rw [hacc]; rfl, by rw [hacc]; rfl, by rw [hacc]; rfl, by rw [hacc]; rfl,
    ⟨g, hg, by rw [hacc]; rfl⟩, ?_, ?_⟩
  · simp [TxCache.PresentWith, TxCache.accountsAt, mapGet_mapSet_same]
  · intro backend
    simp [TxCache.GetAccount, vmAccountInfo.unpack, TxCache.accountsAt, mapGet_mapSet_same]

/-- The witness of C8: in `sampleEnv` over `sampleBackend`, the creator with address 1 and
nonce 0 creates the account at address 2 with the global permissions. -/
theorem createAccount_returns_fresh_witness :
    (NewTxCache sampleBackend).CreateAccount sampleEnv (sampleAccount 1 0)
      = (sampleAccount 1 1,
          .ok ({ NewTxCache sampleBackend with
                  accounts := [(2, { account := some (sampleFresh 2), removed := false })] },
               sampleFresh 2)) ∧
    (sampleFresh 2).Address = derivedAddress sampleEnv (sampleAccount 1 0) ∧
    (sampleFresh 2).Balance = 0 ∧ (sampleFresh 2).Code = [] ∧ (sampleFresh 2).Nonce = 0 ∧
    (∃ g, (NewTxCache sampleBackend).GetAccount sampleEnv.GlobalPermissionsAddress256 = some g ∧
      (sampleFresh 2).Permissions = g.Permissions) ∧
    TxCache.PresentWith
      { NewTxCache sampleBackend with
        accounts := [(2, { account := some (sampleFresh 2), removed := false })] }
      (derivedAddress sampleEnv (sampleAccount 1 0)) (sampleFresh 2) ∧
    (∀ backend, TxCache.GetAccount
      { { NewTxCache sampleBackend with
          accounts := [(2, { account := some (sampleFresh 2), removed := false })] } with
        backend := backend }
      (derivedAddress sampleEnv (sampleAccount 1 0)) = some (sampleFresh 2)) :=
  ⟨rfl, createAccount_returns_fresh sampleEnv _ _ _ _ _ rfl⟩

/-- C9: `CreateAccount(creator)` panics with the address-collision error
exactly when the overlay holds a present record at the derived address. An
address the overlay has no record for never collides, whatever the backing
store holds there. A tombstone at the derived address never collides either:
the call then goes on to the permission lookup, and when that yields an
account the tombstone is replaced by the fresh present account. -/
theorem createAccount_collision_iff (env : Env) (cache : TxCache) (creator : Account) :
    ((cache.CreateAccount env creator).2 = .error (.addressExists (derivedAddress env creator)) ↔
      ∃ acc, cache.PresentWith (derivedAddress env creator) acc) ∧
    (∀ addr, (cache.CreateAccount env creator).2 = .error (.addressExists addr) →
      addr = derivedAddress env creator) ∧
    (cache.Unseen (derivedAddress env creator) → ∀ backend addr,
      (TxCache.CreateAccount env { cache with backend := backend } creator).2
        ≠ .error (.addressExists addr)) ∧
    (cache.Tombstoned (derivedAddress env creator) →
      (∀ addr, (cache.CreateAccount env creator).2 ≠ .error (.addressExists addr)) ∧
      (∀ g, cache.GetAccount env.GlobalPermissionsAddress256 = some g →
        ∃ cache', (cache.CreateAccount env creator).2
            = .ok (cache', newAccount (derivedAddress env creator) g.Permissions) ∧
          cache'.PresentWith (derivedAddress env creator)
            (newAccount (derivedAddress env creator) g.Permissions)) ∧
      (∀ cache' account, (cache.CreateAccount env creator).2 = .ok (cache', account) →
        cache'.PresentWith (derivedAddress env creator) account)) := by
  refine ⟨?_, ?_, ?_, ?_⟩
  · rw [createAccount_snd]
    simp only [TxCache.PresentWith]
    cases hr : (cache.accountsAt (derivedAddress env creator)).removed <;>
      cases ha : (cache.accountsAt (derivedAddress env creator)).account <;>
      cases hg : cache.GetAccount env.GlobalPermissionsAddress256 <;> simp
  · intro addr
    rw [createAccount_snd]
    split
    · split <;> intro h <;> cases h
    · intro h
      injection h with h
      injection h with h
      exact h.symm
  · intro hu backend addr
    rw [createAccount_snd]
    have h0 : TxCache.accountsAt { cache with backend := backend } (derivedAddress env creator)
        = { account := none, removed := false } := by
      simp only [TxCache.Unseen] at hu
      simp [TxCache.accountsAt, hu]
    rw [h0]
    simp only [or_true, if_true]
    split <;> intro h <;> cases h
  · intro ht
    have ht' : (cache.accountsAt (derivedAddress env creator)).removed = true := ht
    refine ⟨?_, ?_, ?_⟩
    · intro addr
      rw [createAccount_snd]
      simp only [ht', true_or, if_true]
      split <;> intro h <;> cases h
    · intro g hg
      refine ⟨{ cache with
          accounts := mapSet cache.accounts (derivedAddress env creator)
            { account := some (newAccount (derivedAddress env creator) g.Permissions)
              removed := false } }, ?_, ?_⟩
      · rw [createAccount_snd]
        simp only [ht', true_or, if_true, hg]
      · simp [TxCache.PresentWith, TxCache.accountsAt, mapGet_mapSet_same]
    · intro cache' account h
      obtain ⟨-, g, -, -, hc⟩ := (createAccount_ok_iff env cache cache' creator account).mp h
      subst hc
      simp [TxCache.PresentWith, TxCache.accountsAt, mapGet_mapSet_same]

/-- C10: when `CreateAccount` is called twice in sequence on the same creator,
with nothing in between, and both calls return, the two accounts they return
have distinct addresses: the second call would panic on the record the first
one left at its address. -/
theorem createAccount_twice_distinct (env : Env) (cache cache1 cache2 : TxCache)
    (creator creator1 creator2 account1 account2 : Account)
    (h1 : cache.CreateAccount env creator = (creator1, .ok (cache1, account1)))
    (h2 : cache1.CreateAccount env creator1 = (creator2, .ok (cache2, account2))) :
    account1.Address ≠ account2.Address := by
  have h1' : (cache.CreateAccount env creator).2 = .ok (cache1, account1) := by rw [h1]
  have h2' : (cache1.CreateAccount env creator1).2 = .ok (cache2, account2) := by rw [h2]
  obtain ⟨-, g1, -, hacc1, hc1⟩ := (createAccount_ok_iff env cache cache1 creator account1).mp h1'
  obtain ⟨hn, g2, -, hacc2, -⟩ := (createAccount_ok_iff env cache1 cache2 creator1 account2).mp h2'
  have ha1 : account1.Address = derivedAddress env creator := by rw [hacc1]; rfl
  have ha2 : account2.Address = derivedAddress env creator1 := by rw [hacc2]; rfl
  intro heq
  apply hn
  refine ⟨account1, ?_⟩
  rw [← ha2, ← heq, ha1, hc1]
  simp [TxCache.PresentWith, TxCache.accountsAt, mapGet_mapSet_same]

/-- The witness of C10: in `sampleEnv` over `sampleBackend`, the creator with address 1
and nonce 0 creates the account at address 2 and then, with nonce 1, the account
at address 3. -/
theorem createAccount_twice_distinct_witness :
    (NewTxCache sampleBackend).CreateAccount sampleEnv (sampleAccount 1 0)
      = (sampleAccount 1 1,
          .ok ({ NewTxCache sampleBackend with
                  accounts := [(2, { account := some (sampleFresh 2), removed := false })] },
               sampleFresh 2)) ∧
    TxCache.CreateAccount sampleEnv
        { NewTxCache sampleBackend with
          accounts := [(2, { account := some (sampleFresh 2), removed := false })] }
        (sampleAccount 1 1)
      = (sampleAccount 1 2,
          .ok ({ NewTxCache sampleBackend with
                  accounts := [(2, { account := some (sampleFresh 2), removed := false }),
                               (3, { account := some (sampleFresh 3), removed := false })] },
               sampleFresh 3)) ∧
    (sampleFresh 2).Address ≠ (sampleFresh 3).Address :=
  ⟨rfl, rfl, createAccount_twice_distinct sampleEnv (NewTxCache sampleBackend)
    { NewTxCache sampleBackend with
      accounts := [(2, { account := some (sampleFresh 2), removed := false })] }
    { NewTxCache sampleBackend with
      accounts := [(2, { account := some (sampleFresh 2), removed := false }),
                   (3, { account := some (sampleFresh 3), removed := false })] }
    (sampleAccount 1 0) (sampleAccount 1 1) (sampleAccount 1 2) (sampleFresh 2) (sampleFresh 3)
    rfl rfl⟩

/-! ## The heap and the overlay of a run -/

theorem mapGet_map_snd {K V W : Type} [DecidableEq K] (m : List (K × V)) (g : V → W) (k : K) :
    mapGet (m.map (fun e => (e.1, g e.2))) k = (mapGet m k).map g := by
  induction m with
  | nil => rfl
  | cons e rest ih =>
    by_cases h : e.1 = k
    · simp [mapGet, h]
    · simp [mapGet, h, ih]

theorem keys_map_snd {K V W : Type} (m : List (K × V)) (g : V → W) :
    (m.map (fun e => (e.1, g e.2))).map Prod.fst = m.map Prod.fst := by
  simp [List.map_map, Function.comp_def]

theorem cache_accountsAt (w : World) (A : Word256) :
    w.cache.accountsAt A
      = ((mapGet w.accounts A).map (fun info => info.deref w.heap)).getD
          { account := none, removed := false } := by
  simp only [TxCache.accountsAt, World.cache, mapGet_map_snd]

/-- The flag `removed` of the record at `A`, which no heap write changes. -/
theorem cache_removed (w : World) (A : Word256) :
    (w.cache.accountsAt A).removed
      = ((mapGet w.accounts A).map (fun info => info.removed)).getD false := by
  rw [cache_accountsAt]
  cases mapGet w.accounts A <;> rfl

theorem step_getAccount_ok (env : Env) (w w' : World) (addr : Word256)
    (h : step env w (.getAccount addr) = .ok w') :
    w'.backend = w.backend ∧ w'.accounts = w.accounts ∧ w'.storages = w.storages ∧
    ∃ l, w'.heap = w.heap ++ l := by
  simp only [step] at h
  split at h
  · split at h
    · injection h with h
      subst h
      exact ⟨rfl, rfl, rfl, _, rfl⟩
    · injection h with h
      subst h
      exact ⟨rfl, rfl, rfl, [], (List.append_nil _).symm⟩
  · injection h with h
    subst h
    exact ⟨rfl, rfl, rfl, [], (List.append_nil _).symm⟩

theorem step_updateAccount_ok (env : Env) (w w' : World) (p : Nat)
    (h : step env w (.updateAccount p) = .ok w') :
    ∃ acc, w.heap[p]? = some acc ∧ ¬ w.cache.Tombstoned acc.Address ∧
      w' = { w with accounts := mapSet w.accounts acc.Address { account := some p, removed := false } } := by
  simp only [step] at h
  cases hp : w.heap[p]? with
  | none => rw [hp] at h; cases h
  | some acc =>
    rw [hp] at h
    simp only at h
    rw [updateAccount_eq] at h
    by_cases hr : (w.cache.accountsAt acc.Address).removed = true
    · rw [if_pos hr] at h
      cases h
    · rw [if_neg hr] at h
      simp only at h
      injection h with h
      exact ⟨acc, rfl, hr, h.symm⟩

theorem step_removeAccount_ok (env : Env) (w w' : World) (p : Nat)
    (h : step env w (.removeAccount p) = .ok w') :
    ∃ acc, w.heap[p]? = some acc ∧ ¬ w.cache.Tombstoned acc.Address ∧
      w' = { w with accounts := mapSet w.accounts acc.Address { account := some p, removed := true } } := by
  simp only [step] at h
  cases hp : w.heap[p]? with
  | none => rw [hp] at h; cases h
  | some acc =>
    rw [hp] at h
    simp only at h
    rw [removeAccount_eq] at h
    by_cases hr : (w.cache.accountsAt acc.Address).removed = true
    · rw [if_pos hr] at h
      cases h
    · rw [if_neg hr] at h
      simp only at h
      injection h with h
      exact ⟨acc, rfl, hr, h.symm⟩

theorem step_setStorage_ok (env : Env) (w w' : World) (addr key value : Word256)
    (h : step env w (.setStorage addr key value) = .ok w') :
    ¬ w.cache.Tombstoned addr ∧
      w' = { w with storages := mapSet w.storages (addr, key) value } := by
  simp only [step] at h
  rw [setStorage_eq] at h
  by_cases hr : (w.cache.accountsAt addr).removed = true
  · rw [if_pos hr] at h
    cases h
  · rw [if_neg hr] at h
    simp only at h
    injection h with h
    exact ⟨hr, h.symm⟩

theorem step_createAccount_ok (env : Env) (w w' : World) (p : Nat)
    (h : step env w (.createAccount p) = .ok w') :
    ∃ creator perms, w.heap[p]? = some creator ∧
      w' = { w with
             heap := w.heap.set p { creator with Nonce := wrapInt64 (creator.Nonce + 1) } ++
               [newAccount (derivedAddress env creator) perms]
             accounts := mapSet w.accounts (derivedAddress env creator)
               { account := some (w.heap.set p
                   { creator with Nonce := wrapInt64 (creator.Nonce + 1) }).length
                 removed := false } } := by
  simp only [step] at h
  cases hp : w.heap[p]? with
  | none => rw [hp] at h; cases h
  | some creator =>
    rw [hp] at h
    simp only at h
    cases hc : (TxCache.CreateAccount env
        (World.cache { w with
          heap := w.heap.set p { creator with Nonce := wrapInt64 (creator.Nonce + 1) } })
        creator).2 with
    | error e => rw [hc] at h; cases h
    | ok r =>
      obtain ⟨c, a⟩ := r
      rw [hc] at h
      simp only at h
      injection h with h
      obtain ⟨-, g, -, hacc, -⟩ := (createAccount_ok_iff env _ c creator a).mp hc
      refine ⟨creator, g.Permissions, rfl, ?_⟩
      rw [← h, hacc]
      rfl

theorem heap_append_of_some (heap l : Heap) (p : Nat) (acc : Account)
    (h : heap[p]? = some acc) : (heap ++ l)[p]? = some acc := by
  induction heap generalizing p with
  | nil => simp at h
  | cons x xs ih =>
    cases p with
    | zero => simpa using h
    | succ n =>
      simp only [List.getElem?_cons_succ] at h
      simp only [List.cons_append, List.getElem?_cons_succ]
      exact ih n h

theorem heap_set_of_some (heap : Heap) (p : Nat) (acc acc' : Account)
    (h : heap[p]? = some acc) : (heap.set p acc')[p]? = some acc' := by
  induction heap generalizing p with
  | nil => simp at h
  | cons x xs ih =>
    cases p with
    | zero => simp
    | succ n =>
      simp only [List.getElem?_cons_succ] at h
      simp only [List.set_cons_succ, List.getElem?_cons_succ]
      exact ih n h

theorem heap_set_of_ne (heap : Heap) (p q : Nat) (acc' : Account) (h : q ≠ p) :
    (heap.set p acc')[q]? = heap[q]? := by
  induction heap generalizing p q with
  | nil => simp
  | cons x xs ih =>
    cases p with
    | zero =>
      cases q with
      | zero => exact absurd rfl h
      | succ m => simp
    | succ n =>
      cases q with
      | zero => simp
      | succ m =>
        simp only [List.set_cons_succ, List.getElem?_cons_succ]
        exact ih n m (fun heq => h (by rw [heq]))

theorem heap_concat_length (heap : Heap) (acc : Account) :
    (heap ++ [acc])[heap.length]? = some acc := by
  induction heap with
  | nil => rfl
  | cons x xs ih => simp

theorem deref_append (heap l : Heap) (info : vmAccountInfoPtr)
    (h : ∀ p, info.account = some p → p < heap.length) :
    info.deref (heap ++ l) = info.deref heap := by
  obtain ⟨a, r⟩ := info
  cases a with
  | none => rfl
  | some p =>
    have hp : p < heap.length := h p rfl
    simp [vmAccountInfoPtr.deref, List.getElem?_append_left hp]

/-! ## The run agrees with the methods

After a call of a run, the overlay with its pointers followed is the overlay
that the method returns on the overlay before the call. -/

theorem map_mapSet {K V W : Type} [DecidableEq K] (m : List (K × V)) (g : V → W) (k : K) (v : V) :
    (mapSet m k v).map (fun e => (e.1, g e.2)) = mapSet (m.map (fun e => (e.1, g e.2))) k (g v) := by
  induction m with
  | nil => rfl
  | cons e rest ih =>
    by_cases h : e.1 = k
    · simp [mapSet, h]
    · simp [mapSet, h, ih]

theorem step_updateAccount_cache (env : Env) (w w' : World) (p : Nat)
    (h : step env w (.updateAccount p) = .ok w') :
    ∃ acc, w.heap[p]? = some acc ∧ w.cache.UpdateAccount acc = .ok w'.cache := by
  obtain ⟨acc, hacc, hn, hw⟩ := step_updateAccount_ok env w w' p h
  have hn' : ¬ (w.cache.accountsAt acc.Address).removed = true := hn
  refine ⟨acc, hacc, ?_⟩
  rw [updateAccount_eq, if_neg hn', hw]
  simp only [World.cache]
  rw [map_mapSet w.accounts (vmAccountInfoPtr.deref w.heap)]
  simp only [vmAccountInfoPtr.deref, Option.some_bind, hacc]

theorem step_removeAccount_cache (env : Env) (w w' : World) (p : Nat)
    (h : step env w (.removeAccount p) = .ok w') :
    ∃ acc, w.heap[p]? = some acc ∧ w.cache.RemoveAccount acc = .ok w'.cache := by
  obtain ⟨acc, hacc, hn, hw⟩ := step_removeAccount_ok env w w' p h
  have hn' : ¬ (w.cache.accountsAt acc.Address).removed = true := hn
  refine ⟨acc, hacc, ?_⟩
  rw [removeAccount_eq, if_neg hn', hw]
  simp only [World.cache]
  rw [map_mapSet w.accounts (vmAccountInfoPtr.deref w.heap)]
  simp only [vmAccountInfoPtr.deref, Option.some_bind, hacc]

theorem step_setStorage_cache (env : Env) (w w' : World) (addr key value : Word256)
    (h : step env w (.setStorage addr key value) = .ok w') :
    w.cache.SetStorage addr key value = .ok w'.cache := by
  obtain ⟨hn, hw⟩ := step_setStorage_ok env w w' addr key value h
  have hn' : ¬ (w.cache.accountsAt addr).removed = true := hn
  rw [setStorage_eq, if_neg hn', hw]
  rfl

theorem step_createAccount_cache (env : Env) (w w' : World) (p : Nat)
    (hv : ∀ e ∈ w.accounts, ∀ q, e.2.account = some q → q < w.heap.length)
    (h : step env w (.createAccount p) = .ok w') :
    ∃ creator account, w.heap[p]? = some creator ∧
      (TxCache.CreateAccount env
        (World.cache { w with
          heap := w.heap.set p { creator with Nonce := wrapInt64 (creator.Nonce + 1) } })
        creator).2 = .ok (w'.cache, account) := by
  simp only [step] at h
  cases hp : w.heap[p]? with
  | none => rw [hp] at h; cases h
  | some creator =>
    rw [hp] at h
    simp only at h
    cases hc : (TxCache.CreateAccount env
        (World.cache { w with
          heap := w.heap.set p { creator with Nonce := wrapInt64 (creator.Nonce + 1) } })
        creator).2 with
    | error e => rw [hc] at h; cases h
    | ok r =>
      obtain ⟨c, a⟩ := r
      rw [hc] at h
      simp only at h
      injection h with h
      obtain ⟨-, g, -, hacc, hcache⟩ := (createAccount_ok_iff env _ c creator a).mp hc
      have haddr : a.Address = derivedAddress env creator := by rw [hacc]; rfl
      have hmap : w.accounts.map (fun e => (e.1, e.2.deref
            (w.heap.set p { creator with Nonce := wrapInt64 (creator.Nonce + 1) } ++ [a])))
          = w.accounts.map (fun e => (e.1, e.2.deref
            (w.heap.set p { creator with Nonce := wrapInt64 (creator.Nonce + 1) }))) := by
        apply List.map_congr_left
        intro e he
        rw [deref_append _ [a] e.2 (fun q hq => by rw [List.length_set]; exact hv e he q hq)]
      have hcw : c = w'.cache := by
        rw [hcache, ← h, haddr]
        simp only [World.cache]
        rw [map_mapSet w.accounts (vmAccountInfoPtr.deref
          (w.heap.set p { creator with Nonce := wrapInt64 (creator.Nonce + 1) } ++ [a])), hmap]
        simp only [vmAccountInfoPtr.deref, Option.some_bind, heap_concat_length]
      refine ⟨creator, a, rfl, ?_⟩
      rw [← hcw]
      exact hc

/-! ## The backing store is written by `Sync` only -/

/-- C7: `UpdateAccount`, `RemoveAccount`, `CreateAccount` and `SetStorage`
return an overlay over the backing store they were called on, accounts and
storage as they were; `GetAccount` and `GetStorage` return a value and no
state at all. So no call of the state-access interface changes the backing
store of a run, whatever pointers the calls are passed. -/
theorem backend_unchanged_by_calls (env : Env) (cache : TxCache) (w : World) :
    (∀ acc cache', cache.UpdateAccount acc = .ok cache' → cache'.backend = cache.backend) ∧
    (∀ acc cache', cache.RemoveAccount acc = .ok cache' → cache'.backend = cache.backend) ∧
    (∀ creator cache' account, (cache.CreateAccount env creator).2 = .ok (cache', account) →
      cache'.backend = cache.backend) ∧
    (∀ addr key value cache', cache.SetStorage addr key value = .ok cache' →
      cache'.backend = cache.backend) ∧
    (∀ op w', step env w op = .ok w' →
      w'.backend = w.backend ∧
      w'.cache.backend.accounts = w.cache.backend.accounts ∧
      w'.cache.backend.storages = w.cache.backend.storages) := by
  have hU : ∀ acc cache', cache.UpdateAccount acc = .ok cache' → cache'.backend = cache.backend := by
    intro acc cache' h
    rw [updateAccount_eq] at h
    split at h
    · cases h
    · injection h with h; subst h; rfl
  have hR : ∀ acc cache', cache.RemoveAccount acc = .ok cache' → cache'.backend = cache.backend := by
    intro acc cache' h
    rw [removeAccount_eq] at h
    split at h
    · cases h
    · injection h with h; subst h; rfl
  have hC : ∀ creator cache' account, (cache.CreateAccount env creator).2 = .ok (cache', account) →
      cache'.backend = cache.backend := by
    intro creator cache' account h
    obtain ⟨-, g, -, -, hc⟩ := (createAccount_ok_iff env cache cache' creator account).mp h
    subst hc; rfl
  have hS : ∀ addr key value cache', cache.SetStorage addr key value = .ok cache' →
      cache'.backend = cache.backend := by
    intro addr key value cache' h
    rw [setStorage_eq] at h
    split at h
    · cases h
    · injection h with h; subst h; rfl
  refine ⟨hU, hR, hC, hS, ?_⟩
  intro op w' h
  have hb : w'.backend = w.backend := by
    cases op with
    | getAccount addr => exact (step_getAccount_ok env w w' addr h).1
    | updateAccount p =>
      obtain ⟨acc, -, -, hw⟩ := step_updateAccount_ok env w w' p h
      rw [hw]
    | removeAccount p =>
      obtain ⟨acc, -, -, hw⟩ := step_removeAccount_ok env w w' p h
      rw [hw]
    | createAccount p =>
      obtain ⟨creator, perms, -, hw⟩ := step_createAccount_ok env w w' p h
      rw [hw]
    | getStorage addr key =>
      simp only [step] at h
      injection h with h
      rw [h]
    | setStorage addr key value =>
      obtain ⟨-, hw⟩ := step_setStorage_ok env w w' addr key value h
      rw [hw]
  refine ⟨hb, ?_, ?_⟩
  · show w'.backend.accounts = w.backend.accounts
    rw [hb]
  · show w'.backend.storages = w.backend.storages
    rw [hb]

/-! ## Tombstones under sequences of calls -/

theorem tombstoned_step (env : Env) (A : Word256) (op : Op) (w w' : World)
    (hA : w.cache.Tombstoned A)
    (hop : ∀ p creator, op = .createAccount p → w.heap[p]? = some creator →
      derivedAddress env creator ≠ A)
    (hstep : step env w op = .ok w') : w'.cache.Tombstoned A := by
  have hA' : (w.cache.accountsAt A).removed = true := hA
  rw [cache_removed] at hA'
  show (w'.cache.accountsAt A).removed = true
  rw [cache_removed]
  cases op with
  | getAccount addr =>
    obtain ⟨-, ha, -, -⟩ := step_getAccount_ok env w w' addr hstep
    rw [ha]
    exact hA'
  | getStorage addr key =>
    simp only [step] at hstep
    injection hstep with h
    subst h
    exact hA'
  | updateAccount p =>
    obtain ⟨acc, -, hn, hw⟩ := step_updateAccount_ok env w w' p hstep
    have hne : A ≠ acc.Address := fun heq => hn (heq ▸ hA)
    rw [hw, mapGet_mapSet_other _ _ _ _ hne]
    exact hA'
  | removeAccount p =>
    obtain ⟨acc, -, hn, hw⟩ := step_removeAccount_ok env w w' p hstep
    have hne : A ≠ acc.Address := fun heq => hn (heq ▸ hA)
    rw [hw, mapGet_mapSet_other _ _ _ _ hne]
    exact hA'
  | setStorage addr key value =>
    obtain ⟨-, hw⟩ := step_setStorage_ok env w w' addr key value hstep
    rw [hw]
    exact hA'
  | createAccount p =>
    obtain ⟨creator, perms, hp, hw⟩ := step_createAccount_ok env w w' p hstep
    have hne : A ≠ derivedAddress env creator := fun heq => hop p creator rfl hp heq.symm
    rw [hw, mapGet_mapSet_other _ _ _ _ hne]
    exact hA'

/-- C3, as amended: once `A` is tombstoned in an overlay it stays tombstoned
under every sequence of `GetAccount`, `UpdateAccount`, `RemoveAccount`,
`GetStorage`, `SetStorage` and `CreateAccount` calls that return, as long as
no `CreateAccount` among them derives the address `A`: `GetAccount(A)` is
still absent afterwards, whatever the backing store holds. -/
theorem tombstone_persists (env : Env) (A : Word256) (ops : List Op) (w w' : World)
    (hA : w.cache.Tombstoned A)
    (hops : derivesNever env A w ops = true)
    (hrun : run env w ops = .ok w') :
    w'.cache.Tombstoned A ∧
    ∀ backend, TxCache.GetAccount { w'.cache with backend := backend } A = none := by
  induction ops generalizing w with
  | nil =>
    simp only [run] at hrun
    injection hrun with h
    subst h
    exact ⟨hA, fun backend => getAccount_of_tombstoned _ A hA⟩
  | cons op rest ih =>
    simp only [run] at hrun
    simp only [derivesNever, Bool.and_eq_true] at hops
    cases hs : step env w op with
    | error p => rw [hs] at hrun; cases hrun
    | ok c =>
      rw [hs] at hrun
      rw [hs] at hops
      have hop : ∀ p creator, op = .createAccount p → w.heap[p]? = some creator →
          derivedAddress env creator ≠ A := by
        intro p creator hop hp
        have h1 := hops.1
        rw [hop] at h1
        simp only [hp, decide_eq_true_eq] at h1
        exact h1
      exact ih c (tombstoned_step env A op w c hA hop hs) hops.2 hrun

/-- The witness of C3 as amended: over `sampleBackend`, the account at address 9
is removed and stays absent under a sequence of all six calls, whose
`CreateAccount` derives address 2. -/
theorem tombstone_persists_witness :
    TxCache.Tombstoned
      (World.cache
        { heap := [sampleAccount 9 0, sampleAccount 4 0, sampleAccount 1 0]
          backend := sampleBackend
          accounts := [(9, { account := some 0, removed := true })]
          storages := [] }) 9 ∧
    derivesNever sampleEnv 9
      { heap := [sampleAccount 9 0, sampleAccount 4 0, sampleAccount 1 0]
        backend := sampleBackend
        accounts := [(9, { account := some 0, removed := true })]
        storages := [] }
      [.getAccount 9, .updateAccount 1, .createAccount 2, .setStorage 4 1 0, .getStorage 4 1,
       .removeAccount 1] = true ∧
    run sampleEnv
      { heap := [sampleAccount 9 0, sampleAccount 4 0, sampleAccount 1 0]
        backend := sampleBackend
        accounts := [(9, { account := some 0, removed := true })]
        storages := [] }
      [.getAccount 9, .updateAccount 1, .createAccount 2, .setStorage 4 1 0, .getStorage 4 1,
       .removeAccount 1]
      = .ok { heap := [sampleAccount 9 0, sampleAccount 4 0, sampleAccount 1 1, sampleFresh 2]
              backend := sampleBackend
              accounts := [(9, { account := some 0, removed := true }),
                           (4, { account := some 1, removed := true }),
                           (2, { account := some 3, removed := false })]
              storages := [((4, 1), 0)] } ∧
    (TxCache.Tombstoned
      (World.cache
        { heap := [sampleAccount 9 0, sampleAccount 4 0, sampleAccount 1 1, sampleFresh 2]
          backend := sampleBackend
          accounts := [(9, { account := some 0, removed := true }),
                       (4, { account := some 1, removed := true }),
                       (2, { account := some 3, removed := false })]
          storages := [((4, 1), 0)] }) 9 ∧
     ∀ backend, TxCache.GetAccount
      { World.cache
          { heap := [sampleAccount 9 0, sampleAccount 4 0, sampleAccount 1 1, sampleFresh 2]
            backend := sampleBackend
            accounts := [(9, { account := some 0, removed := true }),
                         (4, { account := some 1, removed := true }),
                         (2, { account := some 3, removed := false })]
            storages := [((4, 1), 0)] } with backend := backend } 9 = none) :=
  ⟨by decide, rfl, rfl,
    tombstone_persists sampleEnv 9
      [.getAccount 9, .updateAccount 1, .createAccount 2, .setStorage 4 1 0, .getStorage 4 1,
       .removeAccount 1]
      { heap := [sampleAccount 9 0, sampleAccount 4 0, sampleAccount 1 0]
        backend := sampleBackend
        accounts := [(9, { account := some 0, removed := true })]
        storages := [] }
      _ (by decide) rfl rfl⟩

/-- The counterexample to C3: over `sampleBackend`, the account at address 2 is
removed; `CreateAccount` for the creator with address 1 and nonce 0, whose
derived address is 2, then returns, and `GetAccount(2)` returns the fresh
account. -/
theorem tombstone_revived_by_createAccount :
    derivedAddress sampleEnv (sampleAccount 1 0) = 2 ∧
    (NewTxCache sampleBackend).RemoveAccount (sampleAccount 2 0)
      = .ok { NewTxCache sampleBackend with
              accounts := [(2, { account := some (sampleAccount 2 0), removed := true })] } ∧
    run sampleEnv (NewWorld [sampleAccount 2 0, sampleAccount 1 0] sampleBackend)
      [.removeAccount 0, .createAccount 1]
      = .ok { heap := [sampleAccount 2 0, sampleAccount 1 1, sampleFresh 2]
              backend := sampleBackend
              accounts := [(2, { account := some 2, removed := false })]
              storages := [] } ∧
    World.cache
      { heap := [sampleAccount 2 0, sampleAccount 1 1, sampleFresh 2]
        backend := sampleBackend
        accounts := [(2, { account := some 2, removed := false })]
        storages := [] }
      = { NewTxCache sampleBackend with
          accounts := [(2, { account := some (sampleFresh 2), removed := false })] } ∧
    TxCache.GetAccount
      { NewTxCache sampleBackend with
        accounts := [(2, { account := some (sampleFresh 2), removed := false })] } 2
      = some (sampleFresh 2) :=
  ⟨by decide, rfl, rfl, rfl, rfl⟩

/-! ## The flush -/

theorem mapGet_eq_none_of_not_mem {K V : Type} [DecidableEq K] (m : List (K × V)) (k : K)
    (h : k ∉ m.map Prod.fst) : mapGet m k = none := by
  induction m with
  | nil => rfl
  | cons e rest ih =>
    simp only [List.map_cons, List.mem_cons, not_or] at h
    have h1 : ¬ e.1 = k := fun heq => h.1 heq.symm
    simp [mapGet, h1, ih h.2]

theorem mem_of_mapGet_eq_some {K V : Type} [DecidableEq K] (m : List (K × V)) (k : K) (v : V)
    (h : mapGet m k = some v) : (k, v) ∈ m := by
  induction m with
  | nil => cases h
  | cons e rest ih =>
    simp only [mapGet] at h
    split at h
    · rename_i heq
      injection h with h
      obtain ⟨e1, e2⟩ := e
      simp only at heq h
      subst heq
      subst h
      exact List.mem_cons_self _ _
    · exact List.mem_cons_of_mem _ (ih h)

theorem foldl_syncStorage_accounts (ss : List (Tuple256 × Word256)) (b : BlockCache) :
    (ss.foldl syncStorage b).accounts = b.accounts := by
  induction ss generalizing b with
  | nil => rfl
  | cons e rest ih =>
    rw [List.foldl_cons, ih]
    rfl

theorem foldl_syncStorage_storages (ss : List (Tuple256 × Word256)) (b : BlockCache)
    (h : NodupKeys ss) (t : Tuple256) :
    (ss.foldl syncStorage b).storages t = (mapGet ss t).or (b.storages t) := by
  induction ss generalizing b with
  | nil => simp [mapGet]
  | cons e rest ih =>
    simp only [NodupKeys, List.map_cons, List.nodup_cons] at h
    rw [List.foldl_cons, ih _ h.2]
    by_cases heq : e.1 = t
    · subst heq
      rw [mapGet_eq_none_of_not_mem rest e.1 h.1]
      simp [mapGet, syncStorage, Tuple256Split, BlockCache.SetStorage]
    · have heq' : ¬ t = e.1 := fun h2 => heq h2.symm
      simp [mapGet, heq, syncStorage, Tuple256Split, BlockCache.SetStorage, heq']

theorem syncAccounts_spec (as : List (Word256 × vmAccountInfo)) :
    ∀ b : BlockCache, NodupKeys as →
    (∀ e1 ∈ as, ∀ e2 ∈ as, e1.1.Postfix20 = e2.1.Postfix20 → e1.1 = e2.1) →
    (∀ e ∈ as, e.2.removed = false → ∃ acc, e.2.account = some acc ∧ acc.Address = e.1) →
    ∃ b', syncAccounts b as = .ok b' ∧ b'.storages = b.storages ∧
      (∀ a, (∀ e ∈ as, e.1.Postfix20 ≠ a) → b'.accounts a = b.accounts a) ∧
      (∀ e ∈ as, b'.accounts e.1.Postfix20 = flushed e.2) := by
  induction as with
  | nil =>
    intro b _ _ _
    exact ⟨b, rfl, rfl, fun _ _ => rfl, fun e he => by cases he⟩
  | cons e rest ih =>
    intro b hk hinj hrec
    simp only [NodupKeys, List.map_cons, List.nodup_cons] at hk
    -- the flush of the first record
    have h1 : ∃ b1, syncAccount b e = .ok b1 ∧ b1.storages = b.storages ∧
        ∀ a, b1.accounts a = if a = e.1.Postfix20 then flushed e.2 else b.accounts a := by
      cases hr : e.2.removed with
      | true =>
        refine ⟨b.RemoveAccount e.1.Postfix20, ?_, rfl, ?_⟩
        · simp [syncAccount, vmAccountInfo.unpack, hr]
        · intro a
          simp [BlockCache.RemoveAccount, flushed, hr]
      | false =>
        obtain ⟨acc, hacc, haddr⟩ := hrec e (List.mem_cons_self _ _) hr
        refine ⟨b.UpdateAccount (toStateAccount acc), ?_, rfl, ?_⟩
        · simp [syncAccount, vmAccountInfo.unpack, hr, hacc]
        · intro a
          have : (toStateAccount acc).Address = e.1.Postfix20 := by
            rw [← haddr]; rfl
          simp [BlockCache.UpdateAccount, flushed, hr, hacc, this]
    obtain ⟨b1, hb1, hst1, hacc1⟩ := h1
    obtain ⟨b', hb', hst', hun', hfl'⟩ := ih b1 hk.2
      (fun e1 he1 e2 he2 => hinj e1 (List.mem_cons_of_mem _ he1) e2 (List.mem_cons_of_mem _ he2))
      (fun e0 he0 => hrec e0 (List.mem_cons_of_mem _ he0))
    refine ⟨b', ?_, hst'.trans hst1, ?_, ?_⟩
    · simp only [syncAccounts, hb1]
      exact hb'
    · intro a ha
      rw [hun' a (fun e0 he0 => ha e0 (List.mem_cons_of_mem _ he0)), hacc1 a]
      have : ¬ a = e.1.Postfix20 := fun h => ha e (List.mem_cons_self _ _) h.symm
      simp [this]
    · intro e0 he0
      rcases List.mem_cons.mp he0 with h0 | h0
      · subst h0
        have hnot : ∀ e2 ∈ rest, e2.1.Postfix20 ≠ e0.1.Postfix20 := by
          intro e2 he2 hpf
          have hkey : e2.1 = e0.1 :=
            hinj e2 (List.mem_cons_of_mem _ he2) e0 (List.mem_cons_self _ _) hpf
          exact hk.1 (hkey ▸ List.mem_map_of_mem Prod.fst he2)
        rw [hun' _ hnot, hacc1]
        simp
      · exact hfl' e0 h0

theorem mapGet_of_presentWith (cache : TxCache) (k : Word256) (acc : Account)
    (h : cache.PresentWith k acc) :
    mapGet cache.accounts k = some { account := some acc, removed := false } := by
  obtain ⟨h1, h2⟩ := h
  simp only [TxCache.accountsAt] at h1 h2
  cases hm : mapGet cache.accounts k with
  | none => rw [hm] at h2; cases h2
  | some info =>
    rw [hm] at h1 h2
    simp only [Option.getD_some] at h1 h2
    obtain ⟨a, r⟩ := info
    simp only at h1 h2
    rw [h1, h2]

theorem mapGet_of_tombstoned (cache : TxCache) (k : Word256) (h : cache.Tombstoned k) :
    ∃ info, mapGet cache.accounts k = some info ∧ info.removed = true := by
  simp only [TxCache.Tombstoned, TxCache.accountsAt] at h
  cases hm : mapGet cache.accounts k with
  | none => rw [hm] at h; cases h
  | some info =>
    rw [hm] at h
    exact ⟨info, rfl, h⟩

/-- Flush completeness on the backing store modelled here: let the overlay
hold each key once, each present record under the address of its account, and
account keys that are pairwise distinct in their 20-byte postfix. Then `Sync`
returns, in whatever order it visits the records, and afterwards the backing
store holds every pending storage value at its (address, slot), the converted
account `toStateAccount` of every present record at the postfix of its address,
no account at the postfix of a tombstoned address, and what it held before at
every account address and storage slot that no pending record touches. -/
theorem sync_flush_complete (cache : TxCache)
    (hk : NodupKeys cache.accounts) (hs : NodupKeys cache.storages)
    (hinj : cache.PostfixInjective) (hrec : cache.KeyedByAddress) :
    ∃ cache', cache.Sync = .ok cache' ∧
      (∀ addr key value, mapGet cache.storages (addr, key) = some value →
        cache'.backend.GetStorage addr key = value) ∧
      (∀ k acc, cache.PresentWith k acc →
        cache'.backend.GetAccount acc.Address.Postfix20 = some (toStateAccount acc)) ∧
      (∀ k, cache.Tombstoned k → cache'.backend.GetAccount k.Postfix20 = none) ∧
      (∀ a, (∀ e ∈ cache.accounts, e.1.Postfix20 ≠ a) →
        cache'.backend.GetAccount a = cache.backend.GetAccount a) ∧
      (∀ t, mapGet cache.storages t = none →
        cache'.backend.storages t = cache.backend.storages t) := by
  obtain ⟨b', hb', hst, hun, hfl⟩ :=
    syncAccounts_spec cache.accounts (cache.storages.foldl syncStorage cache.backend) hk hinj hrec
  refine ⟨{ cache with backend := b' }, ?_, ?_, ?_, ?_, ?_, ?_⟩
  · simp only [TxCache.Sync, hb']
  · intro addr key value hv
    simp only [BlockCache.GetStorage]
    rw [hst, foldl_syncStorage_storages _ _ hs, hv]
    rfl
  · intro k acc hp
    have hm := mapGet_of_presentWith cache k acc hp
    have hmem := mem_of_mapGet_eq_some _ _ _ hm
    obtain ⟨acc', hacc', haddr⟩ := hrec _ hmem rfl
    simp only [Option.some.injEq] at hacc'
    subst hacc'
    simp only at haddr
    have := hfl _ hmem
    simp only [flushed] at this
    rw [haddr]
    exact this
  · intro k ht
    obtain ⟨info, hm, hr⟩ := mapGet_of_tombstoned cache k ht
    have hmem := mem_of_mapGet_eq_some _ _ _ hm
    have := hfl _ hmem
    simp only [flushed, hr] at this
    exact this
  · intro a ha
    simp only [BlockCache.GetAccount]
    rw [hun a ha, foldl_syncStorage_accounts]
  · intro t ht
    simp only
    rw [hst, foldl_syncStorage_storages _ _ hs, ht]
    rfl

/-- The hypotheses of `sync_flush_complete` hold of `sampleOverlay`. -/
theorem sync_flush_complete_witness :
    NodupKeys sampleOverlay.accounts ∧ NodupKeys sampleOverlay.storages ∧
    sampleOverlay.PostfixInjective ∧ sampleOverlay.KeyedByAddress ∧
    ∃ cache', sampleOverlay.Sync = .ok cache' ∧
      (∀ addr key value, mapGet sampleOverlay.storages (addr, key) = some value →
        cache'.backend.GetStorage addr key = value) ∧
      (∀ k acc, sampleOverlay.PresentWith k acc →
        cache'.backend.GetAccount acc.Address.Postfix20 = some (toStateAccount acc)) ∧
      (∀ k, sampleOverlay.Tombstoned k → cache'.backend.GetAccount k.Postfix20 = none) ∧
      (∀ a, (∀ e ∈ sampleOverlay.accounts, e.1.Postfix20 ≠ a) →
        cache'.backend.GetAccount a = sampleOverlay.backend.GetAccount a) ∧
      (∀ t, mapGet sampleOverlay.storages t = none →
        cache'.backend.storages t = sampleOverlay.backend.storages t) :=
  have hk : NodupKeys sampleOverlay.accounts := by unfold NodupKeys; decide
  have hs : NodupKeys sampleOverlay.storages := by unfold NodupKeys; decide
  have hinj : sampleOverlay.PostfixInjective := by unfold TxCache.PostfixInjective; decide
  have hrec : sampleOverlay.KeyedByAddress := by
    intro e he hr
    simp only [sampleOverlay, List.mem_cons, List.mem_singleton, List.not_mem_nil, or_false] at he
    rcases he with he | he
    · subst he; exact ⟨_, rfl, rfl⟩
    · subst he; cases hr
  ⟨hk, hs, hinj, hrec, sync_flush_complete sampleOverlay hk hs hinj hrec⟩

/-- C6, the code at the failing input: `UpdateAccount` of the account at
address 5 and `RemoveAccount` of the account at address `clashWord` build
`clashOverlay`, whose two account keys share the 20-byte postfix 5, so `Sync`
flushes both records to the address 5 of the backing store. When it visits the
present record first, the backing store ends with no account at the address of
the present record; when it visits the tombstone first, the backing store
modelled here ends with an account at the postfix of the tombstoned address. -/
theorem sync_clash_on_shared_postfix :
    run sampleEnv (NewWorld [sampleAccount 5 0, sampleAccount clashWord 0] sampleBackend)
      [.updateAccount 0, .removeAccount 1]
      = .ok { heap := [sampleAccount 5 0, sampleAccount clashWord 0]
              backend := sampleBackend
              accounts := [(5, { account := some 0, removed := false }),
                           (clashWord, { account := some 1, removed := true })]
              storages := [] } ∧
    World.cache
      { heap := [sampleAccount 5 0, sampleAccount clashWord 0]
        backend := sampleBackend
        accounts := [(5, { account := some 0, removed := false }),
                     (clashWord, { account := some 1, removed := true })]
        storages := [] } = clashOverlay ∧
    clashOverlay.PresentWith 5 (sampleAccount 5 0) ∧
    clashOverlaySwapped.Tombstoned clashWord ∧
    clashWord.Postfix20 = 5 ∧ (sampleAccount 5 0).Address.Postfix20 = 5 ∧
    clashOverlay.Sync
      = .ok { clashOverlay with
              backend := (sampleBackend.UpdateAccount (toStateAccount (sampleAccount 5 0))).RemoveAccount
                clashWord.Postfix20 } ∧
    ((sampleBackend.UpdateAccount (toStateAccount (sampleAccount 5 0))).RemoveAccount
      clashWord.Postfix20).GetAccount 5 = none ∧
    clashOverlaySwapped.Sync
      = .ok { clashOverlaySwapped with
              backend := (sampleBackend.RemoveAccount clashWord.Postfix20).UpdateAccount
                (toStateAccount (sampleAccount 5 0)) } ∧
    ((sampleBackend.RemoveAccount clashWord.Postfix20).UpdateAccount
      (toStateAccount (sampleAccount 5 0))).GetAccount 5
      = some (toStateAccount (sampleAccount 5 0)) :=
  ⟨rfl, rfl, by decide, by decide, by decide, by decide, rfl, by decide, rfl, by decide⟩

/-! ## The nonce of the creator -/

theorem wrapInt64_of_inInt64 (x : Int) (h : inInt64 x) : wrapInt64 x = x := by
  obtain ⟨h1, h2⟩ := h
  unfold wrapInt64
  omega

/-- C11, as amended: `CreateAccount` derives the new address from the 20-byte
postfix of the creator's address and the creator's nonce as it was before the
call, left-padded to a word: a returned account carries that address, and so
does the collision panic. The call leaves the creator with its nonce bumped
and nothing else changed: the nonce is the nonce before the call plus one for
every nonce of the 64-bit signed counter below `2 ^ 63 - 1`, and `-2 ^ 63` for
the nonce `2 ^ 63 - 1`, where the increment wraps. -/
theorem createAccount_nonce_and_address (env : Env) (cache : TxCache) (creator : Account) :
    (∀ cache' account, (cache.CreateAccount env creator).2 = .ok (cache', account) →
      account.Address
        = LeftPadWord256 (env.NewContractAddress creator.Address.Postfix20 creator.Nonce)) ∧
    (∀ addr, (cache.CreateAccount env creator).2 = .error (.addressExists addr) →
      addr = LeftPadWord256 (env.NewContractAddress creator.Address.Postfix20 creator.Nonce)) ∧
    (-2 ^ 63 ≤ creator.Nonce → creator.Nonce < 2 ^ 63 - 1 →
      (cache.CreateAccount env creator).1 = { creator with Nonce := creator.Nonce + 1 }) ∧
    (creator.Nonce = 2 ^ 63 - 1 →
      (cache.CreateAccount env creator).1 = { creator with Nonce := -2 ^ 63 }) := by
  refine ⟨?_, ?_, ?_, ?_⟩
  · intro cache' account h
    obtain ⟨-, g, -, hacc, -⟩ := (createAccount_ok_iff env cache cache' creator account).mp h
    rw [hacc]
    rfl
  · intro addr
    rw [createAccount_snd]
    split
    · split <;> intro h <;> cases h
    · intro h
      injection h with h
      injection h with h
      exact h.symm
  · intro h1 h2
    rw [createAccount_fst, wrapInt64_of_inInt64 _ ⟨by omega, by omega⟩]
  · intro h
    rw [createAccount_fst, h]
    rfl

/-- The counterexample to C11: the creator whose nonce is `2 ^ 63 - 1`, the
largest `int64`, leaves `CreateAccount` with the nonce `-2 ^ 63`, not with
`2 ^ 63`. -/
theorem createAccount_nonce_wraps :
    inInt64 (sampleAccount 1 (2 ^ 63 - 1)).Nonce ∧
    ((NewTxCache sampleBackend).CreateAccount sampleEnv (sampleAccount 1 (2 ^ 63 - 1))).1.Nonce
      = -2 ^ 63 ∧
    ((NewTxCache sampleBackend).CreateAccount sampleEnv (sampleAccount 1 (2 ^ 63 - 1))).1.Nonce
      ≠ (sampleAccount 1 (2 ^ 63 - 1)).Nonce + 1 := by
  refine ⟨by decide, ?_, ?_⟩
  · rw [createAccount_fst]; rfl
  · rw [createAccount_fst]; decide

/-! ## Reads of one address under writes to another -/

theorem getAccount_congr (cache cache' : TxCache) (A : Word256)
    (hb : cache'.backend = cache.backend) (ha : cache'.accountsAt A = cache.accountsAt A) :
    cache'.GetAccount A = cache.GetAccount A := by
  simp only [TxCache.GetAccount, hb, ha]

theorem getStorage_congr (cache cache' : TxCache) (A slot : Word256)
    (hb : cache'.backend = cache.backend)
    (hs : mapGet cache'.storages (A, slot) = mapGet cache.storages (A, slot)) :
    cache'.GetStorage A slot = cache.GetStorage A slot := by
  simp only [TxCache.GetStorage, hb, hs]

/-- C13: let `A` and `B` be distinct addresses and let the overlay hold no
account record for `A`. Then `GetAccount(A)` is the converted account of the
backing store at the postfix of `A` (absent when the backing store has none),
and an `UpdateAccount` or `RemoveAccount` of an account at `B`, or a
`SetStorage` on `B`, changes neither `GetAccount(A)` nor `GetStorage(A, slot)`
for any slot. -/
theorem read_through_isolation (cache : TxCache) (A B : Word256) (hAB : A ≠ B)
    (hA : cache.Unseen A) :
    cache.GetAccount A = (cache.backend.GetAccount A.Postfix20).map toVMAccount ∧
    (∀ acc cache', acc.Address = B → cache.UpdateAccount acc = .ok cache' →
      cache'.GetAccount A = cache.GetAccount A ∧
      ∀ slot, cache'.GetStorage A slot = cache.GetStorage A slot) ∧
    (∀ acc cache', acc.Address = B → cache.RemoveAccount acc = .ok cache' →
      cache'.GetAccount A = cache.GetAccount A ∧
      ∀ slot, cache'.GetStorage A slot = cache.GetStorage A slot) ∧
    (∀ key value cache', cache.SetStorage B key value = .ok cache' →
      cache'.GetAccount A = cache.GetAccount A ∧
      ∀ slot, cache'.GetStorage A slot = cache.GetStorage A slot) := by
  refine ⟨?_, ?_, ?_, ?_⟩
  · have h0 : cache.accountsAt A = { account := none, removed := false } := by
      simp only [TxCache.Unseen] at hA
      simp [TxCache.accountsAt, hA]
    simp only [TxCache.GetAccount, vmAccountInfo.unpack, h0]
    cases cache.backend.GetAccount A.Postfix20 <;> simp
  · intro acc cache' hacc h
    rw [updateAccount_eq] at h
    split at h
    · cases h
    · injection h with h
      subst h
      subst hacc
      exact ⟨getAccount_congr _ _ A rfl (accountsAt_mapSet_other cache _ A _ hAB),
        fun slot => getStorage_congr _ _ A slot rfl rfl⟩
  · intro acc cache' hacc h
    rw [removeAccount_eq] at h
    split at h
    · cases h
    · injection h with h
      subst h
      subst hacc
      exact ⟨getAccount_congr _ _ A rfl (accountsAt_mapSet_other cache _ A _ hAB),
        fun slot => getStorage_congr _ _ A slot rfl rfl⟩
  · intro key value cache' h
    rw [setStorage_eq] at h
    split at h
    · cases h
    · injection h with h
      subst h
      refine ⟨getAccount_congr _ _ A rfl rfl, fun slot => getStorage_congr _ _ A slot rfl ?_⟩
      exact mapGet_mapSet_other cache.storages (B, key) (A, slot) value
        (fun heq => hAB (congrArg Prod.fst heq))

/-- The witness of C13: in `sampleOverlay`, which holds records for the addresses 5
and 6, the addresses 0 and 5 are distinct and 0 has no account record. -/
theorem read_through_isolation_witness :
    (0 : Word256) ≠ 5 ∧ sampleOverlay.Unseen 0 ∧
    (sampleOverlay.GetAccount 0
        = (sampleOverlay.backend.GetAccount (Word256.Postfix20 0)).map toVMAccount ∧
      (∀ acc cache', acc.Address = 5 → sampleOverlay.UpdateAccount acc = .ok cache' →
        cache'.GetAccount 0 = sampleOverlay.GetAccount 0 ∧
        ∀ slot, cache'.GetStorage 0 slot = sampleOverlay.GetStorage 0 slot) ∧
      (∀ acc cache', acc.Address = 5 → sampleOverlay.RemoveAccount acc = .ok cache' →
        cache'.GetAccount 0 = sampleOverlay.GetAccount 0 ∧
        ∀ slot, cache'.GetStorage 0 slot = sampleOverlay.GetStorage 0 slot) ∧
      (∀ key value cache', sampleOverlay.SetStorage 5 key value = .ok cache' →
        cache'.GetAccount 0 = sampleOverlay.GetAccount 0 ∧
        ∀ slot, cache'.GetStorage 0 slot = sampleOverlay.GetStorage 0 slot)) :=
  ⟨by decide, by decide, read_through_isolation sampleOverlay 0 5 (by decide) (by decide)⟩

/-! ## Reading storage -/

/-- C14: `GetStorage(address, slot)` returns the pending value when the overlay
holds one for (address, slot), and otherwise what the backing store's
`GetStorage` returns for (address, slot), which is the zero word when the
backing store has no value there. -/
theorem getStorage_cases (cache : TxCache) (addr key : Word256) :
    (∀ value, mapGet cache.storages (addr, key) = some value →
      cache.GetStorage addr key = value) ∧
    (mapGet cache.storages (addr, key) = none →
      cache.GetStorage addr key = cache.backend.GetStorage addr key) ∧
    (mapGet cache.storages (addr, key) = none → cache.backend.storages (addr, key) = none →
      cache.GetStorage addr key = Zero256) := by
  refine ⟨?_, ?_, ?_⟩
  · intro value h
    simp only [TxCache.GetStorage, h]
  · intro h
    simp only [TxCache.GetStorage, h]
  · intro h hb
    simp only [TxCache.GetStorage, h, BlockCache.GetStorage, hb]
    rfl

/-! ## The conversions between the two kinds of account -/

theorem postfix20_leftPadWord256 (a : Address) : (LeftPadWord256 a).Postfix20 = a := by
  apply Fin.ext
  simp only [Word256.Postfix20, LeftPadWord256]
  exact Nat.mod_eq_of_lt a.isLt

theorem leftPadWord256_postfix20 (w : Word256) (h : w.val < 2 ^ 160) :
    LeftPadWord256 w.Postfix20 = w := by
  apply Fin.ext
  simp only [Word256.Postfix20, LeftPadWord256]
  exact Nat.mod_eq_of_lt h

/-- C15: the two conversions undo each other. For a backing-store account
(whose address is 20 bytes, and whose sequence is an `int`),
`toStateAccount(toVMAccount(acc))` is `acc`, field for field. For an engine
account whose address is a left-padded 20-byte address, whose extension slot
holds a `vmAccountOther` and whose nonce is an `int64`,
`toVMAccount(toStateAccount(acc))` is `acc`. -/
theorem conversions_round_trip (sacc : StateAccount) (acc : Account) (other : vmAccountOther)
    (hseq : inInt64 sacc.Sequence)
    (haddr : acc.Address.val < 2 ^ 160) (hother : acc.Other = some other)
    (hnonce : inInt64 acc.Nonce) :
    toStateAccount (toVMAccount sacc) = sacc ∧
    (toStateAccount (toVMAccount sacc)).Address = sacc.Address ∧
    (toStateAccount (toVMAccount sacc)).PubKey = sacc.PubKey ∧
    (toStateAccount (toVMAccount sacc)).Balance = sacc.Balance ∧
    (toStateAccount (toVMAccount sacc)).Code = sacc.Code ∧
    (toStateAccount (toVMAccount sacc)).Sequence = sacc.Sequence ∧
    (toStateAccount (toVMAccount sacc)).StorageRoot = sacc.StorageRoot ∧
    (toStateAccount (toVMAccount sacc)).Permissions = sacc.Permissions ∧
    toVMAccount (toStateAccount acc) = acc := by
  have h1 : toStateAccount (toVMAccount sacc) = sacc := by
    obtain ⟨a, pk, bal, code, seq, root, perms⟩ := sacc
    simp only [toStateAccount, toVMAccount, vmAccountOther.unpack, postfix20_leftPadWord256]
    simp only at hseq
    rw [wrapInt64_of_inInt64 _ hseq, wrapInt64_of_inInt64 _ hseq]
  have h2 : toVMAccount (toStateAccount acc) = acc := by
    obtain ⟨a, bal, code, nonce, oth, perms⟩ := acc
    simp only at haddr hother hnonce
    subst hother
    simp only [toStateAccount, toVMAccount, vmAccountOther.unpack,
      leftPadWord256_postfix20 _ haddr]
    rw [wrapInt64_of_inInt64 _ hnonce, wrapInt64_of_inInt64 _ hnonce]
  refine ⟨h1, ?_, ?_, ?_, ?_, ?_, ?_, ?_, h2⟩ <;> rw [h1]

/-- The witness of C15: `sampleStateAccount` and its conversion to an engine account. -/
theorem conversions_round_trip_witness :
    inInt64 sampleStateAccount.Sequence ∧
    (toVMAccount sampleStateAccount).Address.val < 2 ^ 160 ∧
    (toVMAccount sampleStateAccount).Other = some { PubKey := some [1, 2], StorageRoot := [9] } ∧
    inInt64 (toVMAccount sampleStateAccount).Nonce ∧
    toStateAccount (toVMAccount sampleStateAccount) = sampleStateAccount ∧
    toVMAccount (toStateAccount (toVMAccount sampleStateAccount)) = toVMAccount sampleStateAccount :=
  have h := conversions_round_trip sampleStateAccount (toVMAccount sampleStateAccount)
    { PubKey := some [1, 2], StorageRoot := [9] } (by decide) (by decide) rfl (by decide)
  ⟨by decide, by decide, rfl, by decide, h.1, h.2.2.2.2.2.2.2.2⟩

/-! ## Reads and the flush leave the pending records alone -/

/-- C16: `GetAccount` and `GetStorage` leave the pending account records and
the pending storage records of the overlay unchanged: the maps are as they
were, and so is every account on the heap. In particular a `GetAccount` that
falls through to the backing store returns the converted account and leaves
the overlay without a record for the address. -/
theorem reads_leave_overlay_unchanged (env : Env) (w : World) (addr key : Word256) :
    (∀ w', step env w (.getAccount addr) = .ok w' →
      w'.accounts = w.accounts ∧ w'.storages = w.storages ∧
      (∀ (p : Nat) (acc : Account), w.heap[p]? = some acc → w'.heap[p]? = some acc) ∧
      w'.cache.storages = w.cache.storages ∧
      ((∀ e ∈ w.accounts, ∀ p, e.2.account = some p → p < w.heap.length) →
        w'.cache.accounts = w.cache.accounts)) ∧
    (∀ w', step env w (.getStorage addr key) = .ok w' →
      w' = w ∧ w'.cache.accounts = w.cache.accounts ∧ w'.cache.storages = w.cache.storages) ∧
    (∃ w', step env w (.getAccount addr) = .ok w') ∧
    (∃ w', step env w (.getStorage addr key) = .ok w') ∧
    (w.cache.Unseen addr → ∀ sacc, w.cache.backend.GetAccount addr.Postfix20 = some sacc →
      w.cache.GetAccount addr = some (toVMAccount sacc) ∧
      ∀ w', step env w (.getAccount addr) = .ok w' → w'.cache.Unseen addr) := by
  refine ⟨?_, ?_, ?_, ⟨w, rfl⟩, ?_⟩
  · intro w' h
    obtain ⟨-, ha, hs, l, hl⟩ := step_getAccount_ok env w w' addr h
    refine ⟨ha, hs, ?_, ?_, ?_⟩
    · intro p acc hp
      rw [hl]
      exact heap_append_of_some _ _ _ _ hp
    · show w'.storages = w.storages
      exact hs
    · intro hv
      show w'.accounts.map (fun e => (e.1, e.2.deref w'.heap))
        = w.accounts.map (fun e => (e.1, e.2.deref w.heap))
      rw [ha, hl]
      apply List.map_congr_left
      intro e he
      rw [deref_append _ _ _ (hv e he)]
  · intro w' h
    simp only [step] at h
    injection h with h
    subst h
    exact ⟨rfl, rfl, rfl⟩
  · simp only [step]
    split
    · split
      · exact ⟨_, rfl⟩
      · exact ⟨_, rfl⟩
    · exact ⟨_, rfl⟩
  · intro hu sacc hs
    refine ⟨?_, ?_⟩
    · have h0 : w.cache.accountsAt addr = { account := none, removed := false } := by
        simp only [TxCache.Unseen] at hu
        simp [TxCache.accountsAt, hu]
      simp only [TxCache.GetAccount, vmAccountInfo.unpack, h0, hs]
      simp
    · intro w' h
      obtain ⟨-, ha, -, -⟩ := step_getAccount_ok env w w' addr h
      simp only [TxCache.Unseen, World.cache, mapGet_map_snd, Option.map_eq_none'] at hu ⊢
      rw [ha]
      exact hu

/-- C17, as amended: `Sync` flushes to the backing store and leaves the
overlay's pending account records and pending storage records exactly as they
were: it clears neither map. -/
theorem sync_keeps_records (cache cache' : TxCache) (h : cache.Sync = .ok cache') :
    cache'.accounts = cache.accounts ∧ cache'.storages = cache.storages := by
  simp only [TxCache.Sync] at h
  split at h
  · injection h with h
    subst h
    exact ⟨rfl, rfl⟩
  · cases h

/-- The witness of C17 as amended: the flush of `sampleOverlay`. -/
theorem sync_keeps_records_witness :
    sampleOverlay.Sync = .ok { sampleOverlay with backend := sampleFlushed } ∧
    TxCache.accounts { sampleOverlay with backend := sampleFlushed } = sampleOverlay.accounts ∧
    TxCache.storages { sampleOverlay with backend := sampleFlushed } = sampleOverlay.storages :=
  ⟨rfl, sync_keeps_records sampleOverlay { sampleOverlay with backend := sampleFlushed } rfl⟩

/-- The counterexample to C17: after the flush of `sampleOverlay` the overlay
still holds its two account records and its storage record. -/
theorem sync_does_not_drain :
    sampleOverlay.Sync = .ok { sampleOverlay with backend := sampleFlushed } ∧
    TxCache.accounts { sampleOverlay with backend := sampleFlushed }
      = [(5, { account := some (sampleAccount 5 0), removed := false }),
         (6, { account := some (sampleAccount 6 0), removed := true })] ∧
    TxCache.storages { sampleOverlay with backend := sampleFlushed } = [((5, 1), 7)] ∧
    TxCache.accounts { sampleOverlay with backend := sampleFlushed } ≠ [] ∧
    TxCache.storages { sampleOverlay with backend := sampleFlushed } ≠ [] :=
  ⟨rfl, rfl, rfl, by decide, by decide⟩

/-! ## The records of a reachable overlay -/

theorem mem_mapSet {K V : Type} [DecidableEq K] (m : List (K × V)) (k : K) (v : V) (e : K × V)
    (h : e ∈ mapSet m k v) : e = (k, v) ∨ e ∈ m := by
  induction m with
  | nil =>
    simp only [mapSet, List.mem_singleton] at h
    exact Or.inl h
  | cons e0 rest ih =>
    simp only [mapSet] at h
    split at h
    · rcases List.mem_cons.mp h with h | h
      · exact Or.inl h
      · exact Or.inr (List.mem_cons_of_mem _ h)
    · rcases List.mem_cons.mp h with h | h
      · exact Or.inr (h ▸ List.mem_cons_self _ _)
      · rcases ih h with h | h
        · exact Or.inl h
        · exact Or.inr (List.mem_cons_of_mem _ h)

theorem mem_keys_mapSet {K V : Type} [DecidableEq K] (m : List (K × V)) (k k' : K) (v : V)
    (h : k' ∈ (mapSet m k v).map Prod.fst) : k' = k ∨ k' ∈ m.map Prod.fst := by
  obtain ⟨e, he, hk⟩ := List.mem_map.mp h
  rcases mem_mapSet m k v e he with h1 | h1
  · left
    rw [← hk, h1]
  · right
    exact hk ▸ List.mem_map_of_mem Prod.fst h1

theorem nodupKeys_mapSet {K V : Type} [DecidableEq K] (m : List (K × V)) (k : K) (v : V)
    (h : NodupKeys m) : NodupKeys (mapSet m k v) := by
  induction m with
  | nil => simp [NodupKeys, mapSet]
  | cons e rest ih =>
    simp only [NodupKeys, List.map_cons, List.nodup_cons] at h
    simp only [mapSet]
    split
    · rename_i heq
      simp only [NodupKeys, List.map_cons, List.nodup_cons]
      exact ⟨heq ▸ h.1, h.2⟩
    · rename_i hne
      simp only [NodupKeys, List.map_cons, List.nodup_cons]
      refine ⟨?_, ih h.2⟩
      intro hmem
      rcases mem_keys_mapSet rest k e.1 v hmem with h1 | h1
      · exact hne h1
      · exact h.1 h1

theorem step_preserves_pointers (env : Env) (op : Op) (w w' : World)
    (h : w.PointsToOwnAddress ∧ NodupKeys w.accounts)
    (hstep : step env w op = .ok w') :
    w'.PointsToOwnAddress ∧ NodupKeys w'.accounts := by
  obtain ⟨hp, hn⟩ := h
  cases op with
  | getAccount addr =>
    obtain ⟨-, ha, -, l, hl⟩ := step_getAccount_ok env w w' addr hstep
    refine ⟨?_, ha ▸ hn⟩
    intro e he
    rw [ha] at he
    obtain ⟨p, acc, h1, h2, h3⟩ := hp e he
    exact ⟨p, acc, h1, hl ▸ heap_append_of_some _ _ _ _ h2, h3⟩
  | getStorage addr key =>
    simp only [step] at hstep
    injection hstep with h1
    subst h1
    exact ⟨hp, hn⟩
  | updateAccount p =>
    obtain ⟨acc, hacc, -, hw⟩ := step_updateAccount_ok env w w' p hstep
    subst hw
    refine ⟨?_, nodupKeys_mapSet _ _ _ hn⟩
    intro e he
    rcases mem_mapSet _ _ _ e he with h1 | h1
    · subst h1
      exact ⟨p, acc, rfl, hacc, rfl⟩
    · exact hp e h1
  | removeAccount p =>
    obtain ⟨acc, hacc, -, hw⟩ := step_removeAccount_ok env w w' p hstep
    subst hw
    refine ⟨?_, nodupKeys_mapSet _ _ _ hn⟩
    intro e he
    rcases mem_mapSet _ _ _ e he with h1 | h1
    · subst h1
      exact ⟨p, acc, rfl, hacc, rfl⟩
    · exact hp e h1
  | setStorage addr key value =>
    obtain ⟨-, hw⟩ := step_setStorage_ok env w w' addr key value hstep
    subst hw
    exact ⟨hp, hn⟩
  | createAccount p =>
    obtain ⟨creator, perms, hc, hw⟩ := step_createAccount_ok env w w' p hstep
    subst hw
    refine ⟨?_, nodupKeys_mapSet _ _ _ hn⟩
    intro e he
    rcases mem_mapSet _ _ _ e he with h1 | h1
    · subst h1
      exact ⟨_, newAccount (derivedAddress env creator) perms, rfl, heap_concat_length _ _, rfl⟩
    · obtain ⟨q, acc, h2, h3, h4⟩ := hp e h1
      by_cases hq : q = p
      · subst hq
        rw [hc] at h3
        injection h3 with h3
        subst h3
        exact ⟨q, _, h2, heap_append_of_some _ _ _ _ (heap_set_of_some _ _ _ _ hc), h4⟩
      · refine ⟨q, acc, h2, heap_append_of_some _ _ _ _ ?_, h4⟩
        rw [heap_set_of_ne _ _ _ _ hq]
        exact h3

theorem run_preserves_pointers (env : Env) (ops : List Op) (w w' : World)
    (h : w.PointsToOwnAddress ∧ NodupKeys w.accounts)
    (hrun : run env w ops = .ok w') :
    w'.PointsToOwnAddress ∧ NodupKeys w'.accounts := by
  induction ops generalizing w with
  | nil =>
    simp only [run] at hrun
    injection hrun with h1
    subst h1
    exact h
  | cons op rest ih =>
    simp only [run] at hrun
    cases hs : step env w op with
    | error p => rw [hs] at hrun; cases hrun
    | ok c =>
      rw [hs] at hrun
      exact ih c (step_preserves_pointers env op w c h hs) hrun

theorem cache_underOwnAddress (w : World) (h : w.PointsToOwnAddress) :
    w.cache.UnderOwnAddress := by
  intro e he
  simp only [World.cache, List.mem_map] at he
  obtain ⟨e0, he0, heq⟩ := he
  obtain ⟨p, acc, h1, h2, h3⟩ := h e0 he0
  subst heq
  refine ⟨acc, ?_, h3⟩
  simp [vmAccountInfoPtr.deref, h1, h2]

/-- C19: in every overlay that calls of the state-access interface build from
the empty overlay, whatever pointers the calls are passed, each account record
stored under a key `k` points to an account whose `Address` is `k`, and the
keys are pairwise distinct. So the flush of a record, a removal addressed by
the key or an update addressed by the `Address` of the account the record
points to at that time, returns and writes the backing store at the 20-byte
postfix of the record's key and nowhere else. -/
theorem reachable_records_under_own_address (env : Env) (heap : Heap) (backend : BlockCache)
    (ops : List Op) (w : World) (hrun : run env (NewWorld heap backend) ops = .ok w) :
    (∀ k info, (k, info) ∈ w.accounts →
      ∃ p acc, info.account = some p ∧ w.heap[p]? = some acc ∧ acc.Address = k) ∧
    (∀ k info, (k, info) ∈ w.cache.accounts → ∃ acc, info.account = some acc ∧ acc.Address = k) ∧
    NodupKeys w.cache.accounts ∧
    (∀ e ∈ w.cache.accounts, ∀ b, ∃ b', syncAccount b e = .ok b' ∧
      b'.accounts e.1.Postfix20 = flushed e.2 ∧
      ∀ a, a ≠ e.1.Postfix20 → b'.accounts a = b.accounts a) := by
  have h0 : (NewWorld heap backend).PointsToOwnAddress ∧ NodupKeys (NewWorld heap backend).accounts :=
    ⟨fun e he => (by cases he), by simp [NodupKeys, NewWorld]⟩
  obtain ⟨hp, hn⟩ := run_preserves_pointers env ops _ w h0 hrun
  have h1 : w.cache.UnderOwnAddress := cache_underOwnAddress w hp
  have h2 : NodupKeys w.cache.accounts := by
    simp only [NodupKeys, World.cache, keys_map_snd]
    exact hn
  refine ⟨fun k info hmem => hp (k, info) hmem, fun k info hmem => h1 (k, info) hmem, h2, ?_⟩
  intro e he b
  obtain ⟨acc, hacc, haddr⟩ := h1 e he
  cases hr : e.2.removed with
  | true =>
    refine ⟨b.RemoveAccount e.1.Postfix20, ?_, ?_, ?_⟩
    · simp [syncAccount, vmAccountInfo.unpack, hr]
    · simp [BlockCache.RemoveAccount, flushed, hr]
    · intro a ha
      simp [BlockCache.RemoveAccount, ha]
  | false =>
    have hpf : (toStateAccount acc).Address = e.1.Postfix20 := by rw [← haddr]; rfl
    refine ⟨b.UpdateAccount (toStateAccount acc), ?_, ?_, ?_⟩
    · simp [syncAccount, vmAccountInfo.unpack, hr, hacc]
    · simp [BlockCache.UpdateAccount, flushed, hr, hacc, hpf]
    · intro a ha
      simp [BlockCache.UpdateAccount, hpf, ha]

/-- The witness of C19: from the empty overlay over `sampleBackend`, the caller's
account at address 1 is stored with `UpdateAccount` and then passed to
`CreateAccount`, which bumps its nonce through the pointer: the record at key 1
shows the nonce 1, and its flush writes the sequence 1 at the address 1. A
`SetStorage` and the `RemoveAccount` of the caller's account at address 4
follow. -/
theorem reachable_records_under_own_address_witness :
    run sampleEnv (NewWorld [sampleAccount 1 0, sampleAccount 4 0] sampleBackend)
      [.updateAccount 0, .createAccount 0, .setStorage 4 1 0, .removeAccount 1]
      = .ok { heap := [sampleAccount 1 1, sampleAccount 4 0, sampleFresh 2]
              backend := sampleBackend
              accounts := [(1, { account := some 0, removed := false }),
                           (2, { account := some 2, removed := false }),
                           (4, { account := some 1, removed := true })]
              storages := [((4, 1), 0)] } ∧
    TxCache.accounts (World.cache
      { heap := [sampleAccount 1 1, sampleAccount 4 0, sampleFresh 2]
        backend := sampleBackend
        accounts := [(1, { account := some 0, removed := false }),
                     (2, { account := some 2, removed := false }),
                     (4, { account := some 1, removed := true })]
        storages := [((4, 1), 0)] })
      = [(1, { account := some (sampleAccount 1 1), removed := false }),
         (2, { account := some (sampleFresh 2), removed := false }),
         (4, { account := some (sampleAccount 4 0), removed := true })] ∧
    (∀ k info,
      (k, info) ∈ TxCache.accounts (World.cache
        { heap := [sampleAccount 1 1, sampleAccount 4 0, sampleFresh 2]
          backend := sampleBackend
          accounts := [(1, { account := some 0, removed := false }),
                       (2, { account := some 2, removed := false }),
                       (4, { account := some 1, removed := true })]
          storages := [((4, 1), 0)] }) →
      ∃ acc, info.account = some acc ∧ acc.Address = k) ∧
    syncAccount sampleBackend (1, { account := some (sampleAccount 1 1), removed := false })
      = .ok (sampleBackend.UpdateAccount (toStateAccount (sampleAccount 1 1))) ∧
    (toStateAccount (sampleAccount 1 1)).Address = 1 ∧
    (toStateAccount (sampleAccount 1 1)).Sequence = 1 :=
  ⟨rfl, rfl, (reachable_records_under_own_address sampleEnv [sampleAccount 1 0, sampleAccount 4 0]
      sampleBackend [.updateAccount 0, .createAccount 0, .setStorage 4 1 0, .removeAccount 1]
      { heap := [sampleAccount 1 1, sampleAccount 4 0, sampleFresh 2]
        backend := sampleBackend
        accounts := [(1, { account := some 0, removed := false }),
                     (2, { account := some 2, removed := false }),
                     (4, { account := some 1, removed := true })]
        storages := [((4, 1), 0)] } rfl).2.1, rfl, by decide, by decide⟩

/-! ## The permission lookup of `CreateAccount` -/

theorem getAccount_of_presentWith (cache : TxCache) (A : Word256) (acc : Account)
    (h : cache.PresentWith A acc) : cache.GetAccount A = some acc := by
  obtain ⟨h1, h2⟩ := h
  simp [TxCache.GetAccount, vmAccountInfo.unpack, h1, h2]

theorem getAccount_of_unseen (cache : TxCache) (A : Word256) (h : cache.Unseen A) :
    cache.GetAccount A = (cache.backend.GetAccount A.Postfix20).map toVMAccount := by
  have h0 : cache.accountsAt A = { account := none, removed := false } := by
    simp only [TxCache.Unseen] at h
    simp [TxCache.accountsAt, h]
  simp only [TxCache.GetAccount, vmAccountInfo.unpack, h0]
  cases cache.backend.GetAccount A.Postfix20 <;> simp

theorem createAccount_of_lookup (env : Env) (cache : TxCache) (creator g : Account)
    (hfree : ¬ ∃ acc, cache.PresentWith (derivedAddress env creator) acc)
    (hg : cache.GetAccount env.GlobalPermissionsAddress256 = some g) :
    ∃ cache' account, (cache.CreateAccount env creator).2 = .ok (cache', account) :=
  ⟨_, _, (createAccount_ok_iff env cache _ creator _).mpr ⟨hfree, g, hg, rfl, rfl⟩⟩

theorem createAccount_of_no_lookup (env : Env) (cache : TxCache) (creator : Account)
    (hfree : ¬ ∃ acc, cache.PresentWith (derivedAddress env creator) acc)
    (hg : cache.GetAccount env.GlobalPermissionsAddress256 = none) :
    (cache.CreateAccount env creator).2 = .error .nilDereference := by
  rw [createAccount_snd]
  simp only [TxCache.PresentWith, not_exists, not_and] at hfree
  have hcond : (cache.accountsAt (derivedAddress env creator)).removed = true ∨
      (cache.accountsAt (derivedAddress env creator)).account = none := by
    cases hr : (cache.accountsAt (derivedAddress env creator)).removed with
    | true => exact Or.inl rfl
    | false =>
      right
      cases ha : (cache.accountsAt (derivedAddress env creator)).account with
      | none => rfl
      | some acc => exact absurd ha (hfree acc hr)
  rw [if_pos hcond, hg]

/-- C20: let no present record sit at the derived address. Then
`CreateAccount` returns an account exactly when `GetAccount` of the global
permissions address yields one. It does when the global permissions account is
present in the overlay, and when the overlay has no record for it and the
backing store holds it. When it is tombstoned in the overlay, or the overlay
has no record for it and the backing store holds none, the call ends in the
panic of a `nil` dereference, returns no account, and the creator's nonce has
been incremented all the same. -/
theorem createAccount_permission_lookup (env : Env) (cache : TxCache) (creator : Account)
    (hfree : ¬ ∃ acc, cache.PresentWith (derivedAddress env creator) acc) :
    ((∃ cache' account, (cache.CreateAccount env creator).2 = .ok (cache', account)) ↔
      ∃ g, cache.GetAccount env.GlobalPermissionsAddress256 = some g) ∧
    (∀ g, cache.PresentWith env.GlobalPermissionsAddress256 g →
      ∃ cache' account, (cache.CreateAccount env creator).2 = .ok (cache', account)) ∧
    (cache.Unseen env.GlobalPermissionsAddress256 →
      ∀ sacc, cache.backend.GetAccount env.GlobalPermissionsAddress256.Postfix20 = some sacc →
      ∃ cache' account, (cache.CreateAccount env creator).2 = .ok (cache', account)) ∧
    (cache.Tombstoned env.GlobalPermissionsAddress256 ∨
        (cache.Unseen env.GlobalPermissionsAddress256 ∧
          cache.backend.GetAccount env.GlobalPermissionsAddress256.Postfix20 = none) →
      (cache.CreateAccount env creator).2 = .error .nilDereference ∧
      (¬ ∃ cache' account, (cache.CreateAccount env creator).2 = .ok (cache', account)) ∧
      (cache.CreateAccount env creator).1 = { creator with Nonce := wrapInt64 (creator.Nonce + 1) } ∧
      (-2 ^ 63 ≤ creator.Nonce → creator.Nonce < 2 ^ 63 - 1 →
        (cache.CreateAccount env creator).1.Nonce = creator.Nonce + 1)) := by
  refine ⟨⟨?_, ?_⟩, ?_, ?_, ?_⟩
  · rintro ⟨cache', account, h⟩
    obtain ⟨-, g, hg, -, -⟩ := (createAccount_ok_iff env cache cache' creator account).mp h
    exact ⟨g, hg⟩
  · rintro ⟨g, hg⟩
    exact createAccount_of_lookup env cache creator g hfree hg
  · intro g hp
    exact createAccount_of_lookup env cache creator g hfree (getAccount_of_presentWith _ _ _ hp)
  · intro hu sacc hs
    refine createAccount_of_lookup env cache creator (toVMAccount sacc) hfree ?_
    rw [getAccount_of_unseen _ _ hu, hs]
    rfl
  · intro h
    have hg : cache.GetAccount env.GlobalPermissionsAddress256 = none := by
      rcases h with ht | ⟨hu, hb⟩
      · exact getAccount_of_tombstoned _ _ ht
      · rw [getAccount_of_unseen _ _ hu, hb]
        rfl
    have herr := createAccount_of_no_lookup env cache creator hfree hg
    refine ⟨herr, ?_, createAccount_fst env cache creator, ?_⟩
    · rintro ⟨cache', account, h⟩
      rw [herr] at h
      cases h
    · intro h1 h2
      rw [createAccount_fst]
      exact wrapInt64_of_inInt64 _ ⟨by omega, by omega⟩

/-- The witness of C20: over the backing store that holds nothing, the empty
overlay has no record at the derived address 2, and `CreateAccount` for the
creator with address 1 and nonce 0 ends in the panic with the nonce at 1. -/
theorem createAccount_permission_lookup_witness :
    (¬ ∃ acc, (NewTxCache { accounts := fun _ => none, storages := fun _ => none }).PresentWith
      (derivedAddress sampleEnv (sampleAccount 1 0)) acc) ∧
    ((NewTxCache { accounts := fun _ => none, storages := fun _ => none }).CreateAccount sampleEnv
      (sampleAccount 1 0)) = (sampleAccount 1 1, .error .nilDereference) ∧
    ((∃ cache' account,
        ((NewTxCache { accounts := fun _ => none, storages := fun _ => none }).CreateAccount sampleEnv
          (sampleAccount 1 0)).2 = .ok (cache', account)) ↔
      ∃ g, (NewTxCache { accounts := fun _ => none, storages := fun _ => none }).GetAccount
        sampleEnv.GlobalPermissionsAddress256 = some g) :=
  have hfree : ¬ ∃ acc,
      (NewTxCache { accounts := fun _ => none, storages := fun _ => none }).PresentWith
        (derivedAddress sampleEnv (sampleAccount 1 0)) acc := by
    rintro ⟨acc, -, h⟩
    cases h
  ⟨hfree, rfl, (createAccount_permission_lookup sampleEnv _ (sampleAccount 1 0) hfree).1⟩

/-! ## The order in which `Sync` visits the records -/

theorem mapGet_of_mem {K V : Type} [DecidableEq K] (m : List (K × V)) (k : K) (v : V)
    (hn : NodupKeys m) (h : (k, v) ∈ m) : mapGet m k = some v := by
  induction m with
  | nil => cases h
  | cons e rest ih =>
    simp only [NodupKeys, List.map_cons, List.nodup_cons] at hn
    rcases List.mem_cons.mp h with h1 | h1
    · subst h1
      simp [mapGet]
    · have hne : ¬ e.1 = k := by
        intro heq
        apply hn.1
        rw [heq]
        exact List.mem_map_of_mem Prod.fst h1
      simp only [mapGet, hne, if_false]
      exact ih hn.2 h1

theorem nodupKeys_of_perm {K V : Type} (m1 m2 : List (K × V)) (hp : m1.Perm m2)
    (h : NodupKeys m1) : NodupKeys m2 :=
  (List.Perm.nodup_iff (hp.map Prod.fst)).mp h

theorem mapGet_of_perm {K V : Type} [DecidableEq K] (m1 m2 : List (K × V)) (hp : m1.Perm m2)
    (h : NodupKeys m1) (k : K) : mapGet m1 k = mapGet m2 k := by
  have h2 : NodupKeys m2 := nodupKeys_of_perm m1 m2 hp h
  cases h1 : mapGet m1 k with
  | some v =>
    exact (mapGet_of_mem m2 k v h2 (hp.mem_iff.mp (mem_of_mapGet_eq_some m1 k v h1))).symm
  | none =>
    cases h3 : mapGet m2 k with
    | none => rfl
    | some v =>
      have := mapGet_of_mem m1 k v h (hp.mem_iff.mpr (mem_of_mapGet_eq_some m2 k v h3))
      rw [h1] at this
      cases this

/-- The order of the flush on the backing store modelled here: let two
overlays over the same backing store hold the same account records and the
same storage records, in whatever order, each key once, each present record
under the address of its account, and account keys that are pairwise distinct
in their 20-byte postfix. Then `Sync` returns on both and leaves the same
backing store. -/
theorem sync_order_independent (cache1 cache2 : TxCache)
    (hb : cache1.backend = cache2.backend)
    (ha : cache1.accounts.Perm cache2.accounts) (hs : cache1.storages.Perm cache2.storages)
    (hk : NodupKeys cache1.accounts) (hks : NodupKeys cache1.storages)
    (hinj : cache1.PostfixInjective) (hrec : cache1.KeyedByAddress) :
    ∃ backend, cache1.Sync = .ok { cache1 with backend := backend } ∧
      cache2.Sync = .ok { cache2 with backend := backend } := by
  have hk2 : NodupKeys cache2.accounts := nodupKeys_of_perm _ _ ha hk
  have hks2 : NodupKeys cache2.storages := nodupKeys_of_perm _ _ hs hks
  have hinj2 : cache2.PostfixInjective := fun e1 h1 e2 h2 =>
    hinj e1 (ha.mem_iff.mpr h1) e2 (ha.mem_iff.mpr h2)
  have hrec2 : cache2.KeyedByAddress := fun e he => hrec e (ha.mem_iff.mpr he)
  obtain ⟨b1, hb1, hst1, hun1, hfl1⟩ :=
    syncAccounts_spec cache1.accounts (cache1.storages.foldl syncStorage cache1.backend) hk hinj hrec
  obtain ⟨b2, hb2, hst2, hun2, hfl2⟩ :=
    syncAccounts_spec cache2.accounts (cache2.storages.foldl syncStorage cache2.backend)
      hk2 hinj2 hrec2
  have hacc : b1.accounts = b2.accounts := by
    funext a
    by_cases hex : ∃ e ∈ cache1.accounts, e.1.Postfix20 = a
    · obtain ⟨e, he, hea⟩ := hex
      rw [← hea, hfl1 e he, hfl2 e (ha.mem_iff.mp he)]
    · have hn1 : ∀ e ∈ cache1.accounts, e.1.Postfix20 ≠ a := fun e he heq => hex ⟨e, he, heq⟩
      have hn2 : ∀ e ∈ cache2.accounts, e.1.Postfix20 ≠ a :=
        fun e he heq => hex ⟨e, ha.mem_iff.mpr he, heq⟩
      rw [hun1 a hn1, hun2 a hn2, foldl_syncStorage_accounts, foldl_syncStorage_accounts, hb]
  have hsto : b1.storages = b2.storages := by
    funext t
    rw [hst1, hst2, foldl_syncStorage_storages _ _ hks, foldl_syncStorage_storages _ _ hks2,
      mapGet_of_perm _ _ hs hks t, hb]
  have hbb : b1 = b2 := by
    cases b1
    cases b2
    simp only at hacc hsto
    rw [hacc, hsto]
  refine ⟨b1, ?_, ?_⟩
  · simp only [TxCache.Sync, hb1]
  · simp only [TxCache.Sync, hb2, hbb]

/-- The hypotheses of `sync_order_independent` hold of `sampleOverlay` and
`sampleOverlaySwapped`, which hold the same records in two orders. -/
theorem sync_order_independent_witness :
    sampleOverlay.backend = sampleOverlaySwapped.backend ∧
    sampleOverlay.accounts.Perm sampleOverlaySwapped.accounts ∧
    sampleOverlay.storages.Perm sampleOverlaySwapped.storages ∧
    NodupKeys sampleOverlay.accounts ∧ NodupKeys sampleOverlay.storages ∧
    sampleOverlay.PostfixInjective ∧ sampleOverlay.KeyedByAddress ∧
    ∃ backend, sampleOverlay.Sync = .ok { sampleOverlay with backend := backend } ∧
      sampleOverlaySwapped.Sync = .ok { sampleOverlaySwapped with backend := backend } :=
  have hk : NodupKeys sampleOverlay.accounts := by unfold NodupKeys; decide
  have hs : NodupKeys sampleOverlay.storages := by unfold NodupKeys; decide
  have hinj : sampleOverlay.PostfixInjective := by unfold TxCache.PostfixInjective; decide
  have hrec : sampleOverlay.KeyedByAddress := by
    intro e he hr
    simp only [sampleOverlay, List.mem_cons, List.mem_singleton, List.not_mem_nil, or_false] at he
    rcases he with he | he
    · subst he; exact ⟨_, rfl, rfl⟩
    · subst he; cases hr
  ⟨rfl, List.Perm.swap _ _ _, List.Perm.refl _, hk, hs, hinj, hrec,
    sync_order_independent sampleOverlay sampleOverlaySwapped rfl (List.Perm.swap _ _ _)
      (List.Perm.refl _) hk hs hinj hrec⟩

/-- C12, the code at the failing input: `clashOverlay` and
`clashOverlaySwapped` hold the same two account records over the same backing
store, in two orders, and their keys share the 20-byte postfix 5, so `Sync`
flushes both records to the address 5 of the backing store, in the order it
visits them. It leaves no account at the address 5 in the one order and, on
the backing store modelled here, an account there in the other. -/
theorem sync_order_matters_on_shared_postfix :
    clashOverlay.backend = clashOverlaySwapped.backend ∧
    clashOverlay.accounts.Perm clashOverlaySwapped.accounts ∧
    clashOverlay.storages = clashOverlaySwapped.storages ∧
    NodupKeys clashOverlay.accounts ∧
    (∃ cache1 cache2, clashOverlay.Sync = .ok cache1 ∧ clashOverlaySwapped.Sync = .ok cache2 ∧
      cache1.backend.GetAccount 5 = none ∧
      cache2.backend.GetAccount 5 = some (toStateAccount (sampleAccount 5 0)) ∧
      cache1.backend.GetAccount 5 ≠ cache2.backend.GetAccount 5) :=
  ⟨rfl, List.Perm.swap _ _ _, rfl, by unfold NodupKeys; decide,
    _, _, rfl, rfl, by decide, by decide, by decide⟩

/-! ## The log scenario -/

theorem codeGas_cons (vm : VM) (i : Instr) (code : List Instr) :
    vm.codeGas (i :: code) = vm.gasCost i + vm.codeGas code := by
  simp [VM.codeGas]

theorem codeGas_append (vm : VM) (code1 code2 : List Instr) :
    vm.codeGas (code1 ++ code2) = vm.codeGas code1 + vm.codeGas code2 := by
  simp [VM.codeGas]

theorem execCode_cons_of_step (vm : VM) (callee : Account) (i : Instr) (rest : List Instr)
    (m m' : Machine) (h : vm.step callee i m = .ok m') (hi : i ≠ .STOP) :
    vm.execCode callee (i :: rest) m = vm.execCode callee rest m' := by
  simp only [VM.execCode, h, hi, if_false]

theorem step_PUSH1 (vm : VM) (callee : Account) (b : Byte) (m : Machine)
    (hgas : (vm.gasCost (.PUSH1 b) : Int) ≤ m.gas) :
    vm.step callee (.PUSH1 b) m
      = .ok { stack := byteWord b :: m.stack, memory := m.memory
              gas := m.gas - vm.gasCost (.PUSH1 b), events := m.events } := by
  have h : ¬ m.gas < vm.gasCost (.PUSH1 b) := by omega
  simp only [VM.step, VM.charge, h, if_false]

theorem step_MSTORE8 (vm : VM) (callee : Account) (m : Machine) (offset value : Word256)
    (stack : List Word256) (hs : m.stack = offset :: value :: stack)
    (hoff : offset.val < m.memory.length) (hgas : (vm.gasCost .MSTORE8 : Int) ≤ m.gas) :
    vm.step callee .MSTORE8 m
      = .ok { stack := stack, memory := m.memory.set offset.val (lowByte value)
              gas := m.gas - vm.gasCost .MSTORE8, events := m.events } := by
  have h : ¬ m.gas < vm.gasCost .MSTORE8 := by omega
  simp only [VM.step, VM.charge, h, if_false, hs, hoff, if_true]

theorem step_LOG (vm : VM) (callee : Account) (n : Nat) (m : Machine) (offset size : Word256)
    (stack : List Word256) (hn : n ≤ 4) (hs : m.stack = offset :: size :: stack)
    (hlen : n ≤ stack.length) (hdata : offset.val + size.val ≤ m.memory.length)
    (hgas : (vm.gasCost (.LOG n) : Int) ≤ m.gas) :
    vm.step callee (.LOG n) m
      = .ok { stack := stack.drop n, memory := m.memory
              gas := m.gas - vm.gasCost (.LOG n)
              events := m.events ++
                [{ Address := callee.Address, Topics := stack.take n
                   Data := (m.memory.drop offset.val).take size.val
                   Height := vm.BlockHeight }] } := by
  have h : ¬ m.gas < vm.gasCost (.LOG n) := by omega
  have h4 : ¬ 4 < n := by omega
  have hl : ¬ stack.length < n := by omega
  simp only [VM.step, VM.charge, h, if_false, hs, h4, hl, hdata, if_true]

theorem execCode_STOP (vm : VM) (callee : Account) (rest : List Instr) (m : Machine)
    (hgas : (vm.gasCost .STOP : Int) ≤ m.gas) :
    vm.execCode callee (.STOP :: rest) m
      = ({ stack := m.stack, memory := m.memory, gas := m.gas - vm.gasCost .STOP
           events := m.events }, .ok ()) := by
  have h : ¬ m.gas < vm.gasCost .STOP := by omega
  simp only [VM.execCode, VM.step, VM.charge, h, if_false, if_true]

theorem execCode_pushes (vm : VM) (callee : Account) (bs : List Byte) (rest : List Instr) :
    ∀ m : Machine, (vm.codeGas (bs.map .PUSH1) : Int) ≤ m.gas →
      vm.execCode callee (bs.map .PUSH1 ++ rest) m
        = vm.execCode callee rest
            { stack := (bs.map byteWord).reverse ++ m.stack, memory := m.memory
              gas := m.gas - vm.codeGas (bs.map .PUSH1), events := m.events } := by
  induction bs with
  | nil =>
    intro m _
    simp [VM.codeGas]
  | cons b bs ih =>
    intro m hgas
    simp only [List.map_cons, codeGas_cons, Nat.cast_add] at hgas
    have hb : (vm.gasCost (.PUSH1 b) : Int) ≤ m.gas := by omega
    simp only [List.map_cons, List.cons_append]
    rw [execCode_cons_of_step vm callee _ _ m _ (step_PUSH1 vm callee b m hb) (by simp)]
    rw [ih _ (by simp only; omega)]
    simp only [List.reverse_cons, List.append_assoc, List.singleton_append, codeGas_cons,
      Nat.cast_add]
    congr 2
    omega

theorem lowByte_byteWord (b : Byte) : lowByte (byteWord b) = b := by
  apply Fin.ext
  simp only [lowByte, byteWord]
  exact Nat.mod_eq_of_lt b.isLt

/-- C18: a call whose code stores a data byte in memory, pushes `N` topics, at
most four, with a data length and a data offset, executes the log instruction
with `N` topics and stops, with the store and the data slice inside the
working memory and gas for every instruction, returns without error and has
handed the event sink exactly one log event: it carries the callee's address,
the topics in declared order (topic 1 first), the addressed slice of the
memory as data, and the block height given to the engine. -/
theorem log_hands_over_one_event (vm : VM) (caller callee : Account) (value offset : Byte)
    (topics : List Byte) (size dataOffset : Byte) (gas : Int)
    (hn : topics.length ≤ 4) (hoff : offset.val < vm.memoryCapacity)
    (hdata : dataOffset.val + size.val ≤ vm.memoryCapacity)
    (hgas : (vm.codeGas (logCode value offset topics size dataOffset) : Int) ≤ gas) :
    ∃ m, vm.Call caller callee (logCode value offset topics size dataOffset) gas = (m, .ok ()) ∧
      m.events =
        [{ Address := callee.Address
           Topics := topics.map byteWord
           Data := (((List.replicate vm.memoryCapacity 0).set offset.val value).drop
                      dataOffset.val).take size.val
           Height := vm.BlockHeight }] ∧
      m.gas = gas - vm.codeGas (logCode value offset topics size dataOffset) := by
  have hcode : vm.codeGas (logCode value offset topics size dataOffset)
      = vm.gasCost (.PUSH1 value) + (vm.gasCost (.PUSH1 offset) + (vm.gasCost .MSTORE8 +
          (vm.codeGas (topics.reverse.map .PUSH1) + (vm.gasCost (.PUSH1 size) +
            (vm.gasCost (.PUSH1 dataOffset) + (vm.gasCost (.LOG topics.length) +
              (vm.gasCost .STOP + vm.codeGas [])))))))  := by
    simp only [logCode, List.cons_append, List.nil_append, codeGas_cons, codeGas_append]
  have hnil : vm.codeGas [] = 0 := rfl
  rw [hcode, hnil] at hgas ⊢
  simp only [Nat.cast_add, Nat.cast_zero] at hgas ⊢
  simp only [VM.Call, logCode, List.cons_append, List.nil_append]
  rw [execCode_cons_of_step vm callee _ _ _ _ (step_PUSH1 vm callee value _ (by simp only; omega))
    (by simp)]
  rw [execCode_cons_of_step vm callee _ _ _ _ (step_PUSH1 vm callee offset _ (by simp only; omega))
    (by simp)]
  rw [execCode_cons_of_step vm callee _ _ _ _
    (step_MSTORE8 vm callee _ (byteWord offset) (byteWord value) [] rfl
      (by simp only [byteWord, List.length_replicate]; exact hoff) (by simp only; omega))
    (by simp)]
  rw [execCode_pushes vm callee topics.reverse _ _ (by simp only; omega)]
  rw [execCode_cons_of_step vm callee _ _ _ _ (step_PUSH1 vm callee size _ (by simp only; omega))
    (by simp)]
  rw [execCode_cons_of_step vm callee _ _ _ _
    (step_PUSH1 vm callee dataOffset _ (by simp only; omega)) (by simp)]
  rw [execCode_cons_of_step vm callee _ _ _ _
    (step_LOG vm callee topics.length _ (byteWord dataOffset) (byteWord size)
      (topics.map byteWord) hn
      (by simp only [List.map_reverse, List.reverse_reverse, List.append_nil])
      (by simp only [List.length_map, le_refl])
      (by simp only [byteWord, List.length_set, List.length_replicate]; exact hdata)
      (by simp only; omega))
    (by simp)]
  rw [execCode_STOP vm callee _ _ (by simp only; omega)]
  refine ⟨_, rfl, ?_, ?_⟩
  · have ht : List.take topics.length (List.map byteWord topics) = List.map byteWord topics := by
      rw [← List.length_map topics byteWord, List.take_length]
    simp only [List.nil_append, lowByte_byteWord, ht]
    rfl
  · simp only
    omega

/-- The witness of C18: the scenario of `TestLog4`: the byte `0x10` at the
memory offset 0, the topics 1, 2, 3, 4, the data length 1 at the offset 0 and
the block height 0, with the gas 100000 of the test. -/
theorem log_hands_over_one_event_witness :
    logCode 16 0 [1, 2, 3, 4] 1 0 = testLog4Code ∧
    (sampleVM.codeGas (logCode 16 0 [1, 2, 3, 4] 1 0) : Int) ≤ 100000 ∧
    ∃ m, sampleVM.Call (sampleAccount 1 0) (sampleAccount 2 0) testLog4Code 100000 = (m, .ok ()) ∧
      m.events = [{ Address := 2, Topics := [1, 2, 3, 4], Data := [16], Height := 0 }] ∧
      m.gas = 100000 - 11 :=
  ⟨by decide, by decide,
    log_hands_over_one_event sampleVM (sampleAccount 1 0) (sampleAccount 2 0) 16 0 [1, 2, 3, 4] 1 0
      100000 (by decide) (by decide) (by decide) (by decide)⟩

end ErisMint
